import Mathlib

/-!
Verification of the encryptor pipeline (Go) against its specification.

Byte slices are modelled as `List Nat`; machine integers are modelled as `Nat`
with explicit truncation (`% 2 ^ w`) where the source truncates.  The AES-GCM
AEAD itself lives in the Go standard library (outside this repository), so it
is modelled parametrically: a GCM instance is a CTR key stream plus a tag
function of (key, nonce, ciphertext), with the 16-byte tag appended to the
ciphertext exactly as `cipher.AEAD.Seal`/`Open` do.  Everything proved below
holds for every such instance, hence in particular for AES-256-GCM.
-/

namespace Encryptor

/-- Go byte slices modelled as lists of naturals. -/
abbrev Bytes := List Nat

/-- Result of calling a Go function that can return a value, return an error,
or crash with a runtime panic.  `crash` records that the call does not return
at all (a Go panic), which is distinct from returning an `error` value. -/

inductive GoResult (α : Type) where
  | ok (val : α)
  | err (msg : String)
  | crash (msg : String)
deriving DecidableEq, Repr

/-- `const AESNonceSize uint = 12` from the source. -/
def AESNonceSize : Nat := 12

/-- `const AESTagSize uint = 16` from the source. -/
def AESTagSize : Nat := 16

/-- Parametric model of the Go standard library GCM AEAD (`crypto/cipher`,
external to this repository).  `keyStream key nonce i` is the CTR key-stream
byte at position `i`; `tagOf key nonce ct` is the 16-byte authentication tag.
All theorems below hold for an arbitrary instance. -/

structure AEADModel where
  keyStream : Bytes → Bytes → Nat → Nat
  tagOf : Bytes → Bytes → Bytes → Bytes
  tagOf_length : ∀ key nonce ct, (tagOf key nonce ct).length = 16

/-- XOR a byte list against a key stream starting at position `i`. -/
def xorStream (ks : Nat → Nat) : Nat → Bytes → Bytes
  | _, [] => []
  | i, b :: rest => Nat.xor b (ks i) :: xorStream ks (i + 1) rest

/-- `cipher.AEAD.Seal` for GCM: ciphertext (same length as the plaintext,
CTR-mode XOR) followed by the 16-byte tag. -/

def gcmSeal (A : AEADModel) (key nonce pt : Bytes) : Bytes :=
  let ct := xorStream (A.keyStream key nonce) 0 pt
  ct ++ A.tagOf key nonce ct

/-- `cipher.AEAD.Open` for GCM: rejects inputs shorter than the 16-byte tag,
recomputes the tag over the ciphertext part and compares, and on success
returns the XOR-decrypted plaintext. -/

def gcmOpen (A : AEADModel) (key nonce data : Bytes) : Option Bytes :=
  if data.length < 16 then none
  else
    let ct := data.take (data.length - 16)
    let tag := data.drop (data.length - 16)
    if A.tagOf key nonce ct = tag then some (xorStream (A.keyStream key nonce) 0 ct)
    else none

/-- `encryptBlobAESGCM256(blob, key)` from the source, with the randomly
generated 12-byte nonce made an explicit argument.  Output is
`gcm.Seal(nonce, nonce, blob, nil)`, i.e. nonce ‖ ciphertext ‖ tag.
Keys that are not exactly 32 bytes are rejected. -/

def encryptBlobAESGCM256 (A : AEADModel) (nonce blob key : Bytes) : Except String Bytes :=
  if key.length ≠ 32 then
    .error "invalid key size supplied - this function takes 256 bits of key material"
  else
    .ok (nonce ++ gcmSeal A key nonce blob)

/-- `decryptBlobAESGCM256(blob, key)` from the source.  After the key-length
check the source evaluates `(*blob)[:nonceSize]`, which in Go panics when the
input is shorter than 12 bytes; this is modelled by `GoResult.crash`.
Otherwise the first 12 bytes are split off as the nonce and the remainder is
passed to `gcm.Open`. -/

def decryptBlobAESGCM256 (A : AEADModel) (blob key : Bytes) : GoResult Bytes :=
  if key.length ≠ 32 then
    .err "invalid key size supplied - this function takes 256 bits of key material"
  else if blob.length < AESNonceSize then
    .crash "runtime error: slice bounds out of range"
  else
    let nonce := blob.take AESNonceSize
    let ciphertext := blob.drop AESNonceSize
    match gcmOpen A key nonce ciphertext with
    | none => .err "could not decrypt the data using the provided key material"
    | some pt => .ok pt

/-- Degenerate AEAD instance (all-zero key stream, all-zero tag), used only to
evaluate the parametric definitions on concrete inputs. -/

def trivAEAD : AEADModel where
  keyStream := fun _ _ _ => 0
  tagOf := fun _ _ _ => List.replicate 16 0
  tagOf_length := fun _ _ _ => List.length_replicate 16 0

/-! Container header (files.go): length-prefixed JSON metadata. -/

/-- `EncryptedFileHeader` from files.go.  Go strings are byte slices, so the
string fields are modelled as `Bytes`; `NumChunks` is a `uint32`,
`ChunkSizeBytes` an `int64` and `KeySize` an `int` (naturals here, with the
machine ranges imposed by `wellFormedHeader` where a claim needs them). -/

structure EncryptedFileHeader where
  FormatVersion : Bytes
  NumChunks : Nat
  ChunkSizeBytes : Nat
  Algorithm : Bytes
  Mode : Bytes
  KeySize : Nat
deriving DecidableEq, Repr

/-- Little-endian decimal digits with explicit fuel, so that the definition
is structurally recursive and evaluates inside the kernel. -/

def decDigitsRev : Nat → Nat → List Nat
  | _, 0 => []
  | 0, _ + 1 => []
  | fuel + 1, n + 1 => (n + 1) % 10 :: decDigitsRev fuel ((n + 1) / 10)

/-- Decimal rendering of a natural number as ASCII bytes, most significant
digit first: the form `encoding/json` emits for integer fields. -/

def decRender (n : Nat) : Bytes :=
  if n = 0 then [48] else ((decDigitsRev n n).reverse).map (fun d => d + 48)

/-- JSON literal bytes for the text between braces of the marshalled header.
This is the opening brace, quote, `FormatVersion`, quote, colon, quote. -/

def jlFormatVersion : Bytes :=
  [123, 34, 70, 111, 114, 109, 97, 116, 86, 101, 114, 115, 105, 111, 110, 34, 58, 34]

/-- Comma, quote, `NumChunks`, quote, colon. -/
def jlNumChunks : Bytes := [44, 34, 78, 117, 109, 67, 104, 117, 110, 107, 115, 34, 58]

/-- Comma, quote, `ChunkSizeBytes`, quote, colon. -/
def jlChunkSizeBytes : Bytes :=
  [44, 34, 67, 104, 117, 110, 107, 83, 105, 122, 101, 66, 121, 116, 101, 115, 34, 58]

/-- Comma, quote, `Algorithm`, quote, colon, quote. -/
def jlAlgorithm : Bytes := [44, 34, 65, 108, 103, 111, 114, 105, 116, 104, 109, 34, 58, 34]

/-- Comma, quote, `Mode`, quote, colon, quote. -/
def jlMode : Bytes := [44, 34, 77, 111, 100, 101, 34, 58, 34]

/-- Comma, quote, `KeySize`, quote, colon. -/
def jlKeySize : Bytes := [44, 34, 75, 101, 121, 83, 105, 122, 101, 34, 58]

/-- The bytes `json.Marshal` produces for an `EncryptedFileHeader` (fields in
declaration order, no spaces; the terminal 125 is the closing brace).
`json.Marshal` is Go standard library; this is its output grammar on this
struct, for field values needing no JSON escaping (`wellFormedHeader`). -/

def marshalHeaderJson (h : EncryptedFileHeader) : Bytes :=
  jlFormatVersion ++ h.FormatVersion ++ [34] ++
    jlNumChunks ++ decRender h.NumChunks ++
    jlChunkSizeBytes ++ decRender h.ChunkSizeBytes ++
    jlAlgorithm ++ h.Algorithm ++ [34] ++
    jlMode ++ h.Mode ++ [34] ++
    jlKeySize ++ decRender h.KeySize ++ [125]

/-- Strip an expected literal from the front of the input. -/
def stripLit : Bytes → Bytes → Option Bytes
  | [], data => some data
  | _ :: _, [] => none
  | l :: ls, d :: ds => if l = d then stripLit ls ds else none

/-- Parse a JSON string body up to (and consuming) the closing quote. -/
def parseStringBytes : Bytes → Option (Bytes × Bytes)
  | [] => none
  | b :: rest =>
    if b = 34 then some ([], rest)
    else (parseStringBytes rest).map (fun p => (b :: p.1, p.2))

/-- Split the maximal run of ASCII digits off the front of the input. -/
def parseDigits : Bytes → Bytes × Bytes
  | [] => ([], [])
  | b :: rest =>
    if 48 ≤ b ∧ b ≤ 57 then
      let p := parseDigits rest
      (b :: p.1, p.2)
    else ([], b :: rest)

/-- Parse a decimal natural number (at least one digit). -/
def parseNumber (data : Bytes) : Option (Nat × Bytes) :=
  let p := parseDigits data
  if p.1 = [] then none
  else some (p.1.foldl (fun a d => a * 10 + (d - 48)) 0, p.2)

/-- `json.Unmarshal` into `EncryptedFileHeader`, restricted to the canonical
grammar `json.Marshal` emits for this struct; the whole input must be
consumed, as `json.Unmarshal` rejects trailing data. -/

def parseHeaderJson (data : Bytes) : Option EncryptedFileHeader := do
  let r1 ← stripLit jlFormatVersion data
  let p1 ← parseStringBytes r1
  let r2 ← stripLit jlNumChunks p1.2
  let p2 ← parseNumber r2
  let r3 ← stripLit jlChunkSizeBytes p2.2
  let p3 ← parseNumber r3
  let r4 ← stripLit jlAlgorithm p3.2
  let p4 ← parseStringBytes r4
  let r5 ← stripLit jlMode p4.2
  let p5 ← parseStringBytes r5
  let r6 ← stripLit jlKeySize p5.2
  let p6 ← parseNumber r6
  let r7 ← stripLit [125] p6.2
  if r7 = [] then some ⟨p1.1, p2.1, p3.1, p4.1, p5.1, p6.1⟩ else none

/-- `uint16FromBytes` from files.go: requires at least two bytes and reads a
little-endian `uint16`. -/

def uint16FromBytes (data : Bytes) : Option Nat :=
  match data with
  | b0 :: b1 :: _ => some (b0 % 256 + 256 * (b1 % 256))
  | _ => none

/-- `bytesFromUint16` from files.go: little-endian encoding of a `uint16`. -/
def bytesFromUint16 (n : Nat) : Bytes := [n % 256, n / 256 % 256]

/-- `getCompleteEncryptedFileHeaderAsBytes` from files.go: the little-endian
`uint16` header length indicator (the `uint16(len(jsonBytes))` cast is the
`% 65536` truncation) followed by the JSON bytes. -/
def getCompleteEncryptedFileHeaderAsBytes (h : EncryptedFileHeader) : Bytes :=
  let jsonBytes := marshalHeaderJson h
  bytesFromUint16 (jsonBytes.length % 65536) ++ jsonBytes

/-- `getEncryptedFileHeaderFromBytes` from files.go: requires at least the
2-byte HLI, reads it, parses the entire remainder of the input as the JSON
header, and returns the header with the offset `2 + HLI`. -/

def getEncryptedFileHeaderFromBytes (data : Bytes) : Option (EncryptedFileHeader × Nat) :=
  if data.length < 2 then none
  else
    match uint16FromBytes data with
    | none => none
    | some hli =>
      match parseHeaderJson (data.drop 2) with
      | none => none
      | some h => some (h, 2 + hli)

/-- `getEncryptedFileHeaderFromFile` from files.go, on the file's bytes:
requires file size at least 3, reads the 2-byte HLI, reads exactly HLI
further bytes (`io.ReadFull` fails when fewer are available), parses them as
the JSON header and returns the header with offset `2 + HLI`. -/

def getEncryptedFileHeaderFromFileBytes (file : Bytes) : Option (EncryptedFileHeader × Nat) :=
  if file.length < 3 then none
  else
    match uint16FromBytes (file.take 2) with
    | none => none
    | some hli =>
      if file.length - 2 < hli then none
      else
        match parseHeaderJson ((file.drop 2).take hli) with
        | none => none
        | some h => some (h, 2 + hli)

/-- Bytes that `encoding/json` emits into a string literal unchanged: ASCII,
printable, not quote, not backslash, and not one of `&`, `<`, `>` (which
`json.Marshal` HTML-escapes). -/

def goodJSONString (s : Bytes) : Prop :=
  ∀ b ∈ s, 32 ≤ b ∧ b ≤ 126 ∧ b ≠ 34 ∧ b ≠ 92 ∧ b ≠ 38 ∧ b ≠ 60 ∧ b ≠ 62

instance (s : Bytes) : Decidable (goodJSONString s) := by
  unfold goodJSONString; infer_instance

/-- Headers whose fields fit their Go machine types and marshal without
escaping, with the JSON short enough for the `uint16` length indicator. -/

def wellFormedHeader (h : EncryptedFileHeader) : Prop :=
  goodJSONString h.FormatVersion ∧ goodJSONString h.Algorithm ∧ goodJSONString h.Mode ∧
    h.NumChunks < 2 ^ 32 ∧ h.ChunkSizeBytes < 2 ^ 63 ∧ h.KeySize < 2 ^ 63 ∧
    (marshalHeaderJson h).length < 65536

instance (h : EncryptedFileHeader) : Decidable (wellFormedHeader h) := by
  unfold wellFormedHeader; infer_instance

/-! Chunk plan, worker partitioning and the pipeline conductor
(`runPipelineJob`, `readStage`, `readWorker`, `executeWorker`,
`writeWorker`). -/

/-- `OperationEnum` from the source. -/
inductive OperationEnum where
  | Encryption
  | Decryption
  | FileHashing
deriving DecidableEq, Repr

/-- `bytesFromMB` from the source. -/
def bytesFromMB (mb : Nat) : Nat := mb * 1024 * 1024

/-- The chunk count computed by `runPipelineJob`:
`numChunks := uint32(sizeBytes / chunkSizeBytes)`, incremented (in `uint32`
arithmetic) when there is a remainder.  The `% 2 ^ 32` model the `uint32`
casts. -/

def numChunksFor (sizeBytes chunkSizeBytes : Nat) : Nat :=
  (sizeBytes / chunkSizeBytes % 2 ^ 32 +
    (if sizeBytes % chunkSizeBytes ≠ 0 then 1 else 0)) % 2 ^ 32

/-- `ChunkReadRequest` from the source (`ChunkID` is 1-based). -/
structure ChunkReadRequest where
  ChunkID : Nat
  RangeStart : Nat
  RangeEnd : Nat
deriving DecidableEq, Repr

/-- The zero value `EncryptedFileHeader{}` that `runPipelineJob` passes to the
read stage for encryption jobs. -/

def emptyHeader : EncryptedFileHeader := ⟨[], 0, 0, [], [], 0⟩

/-- The read request `readStage` primes for 0-based chunk index `i`.  The
stage receives the parsed `fileHeader` but, exactly as in the source, never
reads it: for decryption the stride `12 + chunkSizeBytes + 16` is computed
from the job's `chunkSizeMB`, not from `fileHeader.ChunkSizeBytes`.  The
range end is clamped to the file size when it reaches or passes it; an
unsupported operation is a stage error (`none`). -/

def readStageRequest (op : OperationEnum) (chunkSizeMB : Nat)
    (fileHeader : EncryptedFileHeader) (endOfHeader fileSize i : Nat) :
    Option ChunkReadRequest :=
  let chunkSizeBytes := bytesFromMB chunkSizeMB
  match op with
  | .Encryption =>
    let s := i * chunkSizeBytes
    let e := s + chunkSizeBytes
    some ⟨i + 1, s, if fileSize ≤ e then fileSize else e⟩
  | .Decryption =>
    let s := endOfHeader + i * (AESNonceSize + chunkSizeBytes + AESTagSize)
    let e := s + AESNonceSize + chunkSizeBytes + AESTagSize
    some ⟨i + 1, s, if fileSize ≤ e then fileSize else e⟩
  | .FileHashing => none

/-- `readWorker` reads exactly `RangeEnd - RangeStart` bytes at offset
`RangeStart`. -/
def chunkSlice (D : Bytes) (req : ChunkReadRequest) : Bytes :=
  (D.drop req.RangeStart).take (req.RangeEnd - req.RangeStart)

/-- The workers' `idMatch`: the worker whose id equals the pool size claims
residue 0. -/

def idMatch (numWorkers id : Nat) : Nat := if id = numWorkers then 0 else id

/-- Worker `w` claims 1-based chunk index `i` iff `i % numWorkers == idMatch`
(the loop guard in `readWorker`, `executeWorker` and `writeWorker`). -/
def claimsChunk (numWorkers i w : Nat) : Bool := i % numWorkers == idMatch numWorkers w

/-- The unique worker id in `[1, numWorkers]` that claims 1-based chunk `i`. -/
def assignedWorker (numWorkers i : Nat) : Nat :=
  if i % numWorkers = 0 then numWorkers else i % numWorkers

/-- Per-worker output stream: the (0-based chunk id, value) pairs worker `w`
publishes to the downstream per-chunk channels, in its loop order. -/

def workerOutput {α : Type} (vals : Nat → α) (n numWorkers w : Nat) : List (Nat × α) :=
  ((List.range n).filter (fun i => claimsChunk numWorkers (i + 1) w)).map (fun i => (i, vals i))

/-- Chunk `i`'s single-capacity downstream channel holds the value published
by whichever worker of the pool claimed chunk `i`; the consumer finds it by
chunk id across all workers' outputs. -/

def partitionDeliver {α : Type} (numWorkers : Nat) (vals : Nat → α) (n i : Nat) : Option α :=
  List.lookup i (((List.range numWorkers).map (· + 1)).flatMap (workerOutput vals n numWorkers))

/-- The header `writeStage` constructs for an encryption job. -/
def writeStageHeader (numChunks chunkSizeMB : Nat) : EncryptedFileHeader :=
  ⟨[49, 46, 48], numChunks, bytesFromMB chunkSizeMB, [65, 69, 83], [71, 67, 77], 256⟩

/-- The plaintext chunk a read worker publishes on read-to-execute channel
`i` of an encryption job (0-based `i`). -/
def encReadChunk (F : Bytes) (chunkSizeMB i : Nat) : Bytes :=
  match readStageRequest .Encryption chunkSizeMB emptyHeader 0 F.length i with
  | some req => chunkSlice F req
  | none => []

/-- What the executor claiming chunk `i` receives from the read stage, for a
reader pool of size `R`. -/

def encDelivered (F : Bytes) (chunkSizeMB R n i : Nat) : Bytes :=
  (partitionDeliver R (encReadChunk F chunkSizeMB) n i).getD []

/-- The sealed blob the executor claiming chunk `i` publishes on
execute-to-write channel `i` (`executeWorker` with `op == Encryption`). -/

def encSealed (A : AEADModel) (nonces : List Bytes) (key F : Bytes)
    (chunkSizeMB R n i : Nat) : Bytes :=
  match encryptBlobAESGCM256 A (nonces.getD i []) (encDelivered F chunkSizeMB R n i) key with
  | .ok b => b
  | .error _ => []

/-- What the single write worker receives for chunk `i`, for an executor pool
of size `T`. -/

def encWritten (A : AEADModel) (nonces : List Bytes) (key F : Bytes)
    (chunkSizeMB R T n i : Nat) : Bytes :=
  (partitionDeliver T (encSealed A nonces key F chunkSizeMB R n) n i).getD []

/-- The bytes an encryption pipeline run hands to the target file, as a
function of the per-chunk nonce choices and the reader / executor pool sizes
`R` and `T`.  Chunk `i`'s plaintext travels: primed read request → reader
`assignedWorker R (i+1)` → read-to-execute channel `i` → executor
`assignedWorker T (i+1)` (which calls `encryptBlobAESGCM256`) →
execute-to-write channel `i` → the single write worker, which first writes
the complete header and then drains the channels in ascending chunk order. -/

def pipelineEncryptBytes (A : AEADModel) (nonces : List Bytes) (key F : Bytes)
    (chunkSizeMB R T : Nat) : Except String Bytes :=
  if key.length ≠ 32 then
    .error "execute stage currently only supports 256-bit (32 byte) key materials"
  else
    .ok (getCompleteEncryptedFileHeaderAsBytes
        (writeStageHeader (numChunksFor F.length (bytesFromMB chunkSizeMB)) chunkSizeMB) ++
      (List.range (numChunksFor F.length (bytesFromMB chunkSizeMB))).flatMap
        (encWritten A nonces key F chunkSizeMB R T
          (numChunksFor F.length (bytesFromMB chunkSizeMB))))

/-- The sealed chunk a read worker publishes on read-to-execute channel `i`
of a decryption job. -/

def decReadChunk (hdr : EncryptedFileHeader) (D : Bytes) (chunkSizeMB endOfHeader i : Nat) :
    Bytes :=
  match readStageRequest .Decryption chunkSizeMB hdr endOfHeader D.length i with
  | some req => chunkSlice D req
  | none => []

/-- What the executor claiming chunk `i` receives from the read stage of a
decryption job. -/

def decDelivered (hdr : EncryptedFileHeader) (D : Bytes)
    (chunkSizeMB endOfHeader R n i : Nat) : Bytes :=
  (partitionDeliver R (decReadChunk hdr D chunkSizeMB endOfHeader) n i).getD []

/-- The result the executor claiming chunk `i` produces (`executeWorker` with
`op == Decryption`). -/
def decExec (A : AEADModel) (key : Bytes) (hdr : EncryptedFileHeader) (D : Bytes)
    (chunkSizeMB endOfHeader R n i : Nat) : GoResult Bytes :=
  decryptBlobAESGCM256 A (decDelivered hdr D chunkSizeMB endOfHeader R n i) key

/-- What the single write worker receives for chunk `i` of a decryption job,
for an executor pool of size `T`. -/

def decWritten (A : AEADModel) (key : Bytes) (hdr : EncryptedFileHeader) (D : Bytes)
    (chunkSizeMB endOfHeader R T n i : Nat) : GoResult Bytes :=
  (partitionDeliver T (decExec A key hdr D chunkSizeMB endOfHeader R n) n i).getD
    (.err "missing chunk")

/-- How the write worker extends the output with chunk `i`'s result: a chunk
whose cryptographic transformation failed aborts the job with that error. -/

def writeFoldStep (acc r : GoResult Bytes) : GoResult Bytes :=
  match acc, r with
  | .ok bs, .ok pt => .ok (bs ++ pt)
  | .ok _, .err e => .err e
  | .ok _, .crash e => .crash e
  | e, _ => e

/-- The result of a decryption pipeline run over the source bytes `D`.  The
conductor parses the header and overrides the chunk count with
`header.NumChunks`; the read ranges still use the job's `chunkSizeMB` (see
`readStageRequest`). -/

def pipelineDecryptBytes (A : AEADModel) (key D : Bytes) (chunkSizeMB R T : Nat) :
    GoResult Bytes :=
  match getEncryptedFileHeaderFromFileBytes D with
  | none => .err "failed to retrieve encryption header from file"
  | some (hdr, endOfHeader) =>
    if key.length ≠ 32 then
      .err "execute stage currently only supports 256-bit (32 byte) key materials"
    else
      (List.range hdr.NumChunks).foldl
        (fun acc i =>
          writeFoldStep acc (decWritten A key hdr D chunkSizeMB endOfHeader R T hdr.NumChunks i))
        (.ok [])

/-! Stage-level error aggregation (the receive loop at the end of
`readStage`, `executeStage` and `writeStage`). -/

/-- The aggregation loop of a stage: it receives one result per worker from
the stage-local error channel and, for each non-nil result, overwrites the
stage error with that worker's error wrapped in the stage label. -/

def collectWorkerErrors (label : String) (results : List (Option String)) : Option String :=
  results.foldl
    (fun acc r =>
      match r with
      | none => acc
      | some e => some (label ++ e))
    none

/-- The last non-nil entry of a list of worker results. -/
def lastWorkerError (results : List (Option String)) : Option String :=
  results.foldl
    (fun acc r =>
      match r with
      | none => acc
      | some e => some e)
    none

/-! Worker error scoping (`readWorker`, `writeWorker` in `worker.go`).  Each
worker declares a function-scoped `var err error = nil` and defers
`ch <- err`: only assignments to that variable reach the stage's aggregation
channel.  Inside `readWorker`'s chunk loop, `seek, err := file.Seek(...)` and
`bytesRead, err := io.ReadFull(...)` declare a fresh block-scoped `err`
shadowing the function-scoped one, and inside `writeWorker` the block-scoped
`written, err := writer.Write(...)` (with `err = writer.Flush()` assigning
that same block variable) does likewise, so the failures assigned there never
reach the deferred send, which transmits nil.  The runs below carry both
error slots explicitly. -/

/-- One chunk processed by `readWorker`: seek to `RangeStart` (seeking a
regular file to a non-negative offset succeeds even past end of file), then
`io.ReadFull` of `RangeEnd - RangeStart` bytes into the chunk buffer, a short
read exactly when fewer bytes remain in the file from `RangeStart` on (the
message keeps the source's spelling). -/
def readWorkerChunk (D : Bytes) (req : ChunkReadRequest) : Except String Bytes :=
  if D.length - req.RangeStart < req.RangeEnd - req.RangeStart then
    .error "error occurred durring read of file"
  else
    .ok ((D.drop req.RangeStart).take (req.RangeEnd - req.RangeStart))

/-- The chunk loop of `readWorker`: the worker returns at the first failing
chunk, assigning the failure to the loop's block-scoped `err`. -/
def readLoopFailure (D : Bytes) : List ChunkReadRequest → Option String
  | [] => none
  | req :: rest =>
    match readWorkerChunk D req with
    | .error e => some e
    | .ok _ => readLoopFailure D rest

/-- A `readWorker` run over its claimed requests, on a source holding
`fileContent` (`none` when the file does not exist).  First component: the
error the chunk loop aborted with, which Go assigns to the block-scoped `err`
declared by `seek, err :=` / `bytesRead, err :=`.  Second component: the
function-scoped `err` transmitted by the deferred `ch <- err`; the
empty-file-name check and the `file, err := os.Open(fileName)` at function
scope assign it, the chunk loop never does. -/
def readWorkerRun (fileName : Bytes) (fileContent : Option Bytes)
    (requests : List ChunkReadRequest) : Option String × Option String :=
  if fileName = [] then
    (none, some "empty string passed in for filename")
  else
    match fileContent with
    | none => (none, some "source file does not exist")
    | some D => (readLoopFailure D requests, none)

/-- First failing result among the buffered writes a `writeWorker` attempts,
in order (the worker returns at the first failed write). -/
def firstWriteFailure : List (Option String) → Option String
  | [] => none
  | some e :: _ => some e
  | none :: rest => firstWriteFailure rest

/-- A `writeWorker` run, given whether the target exists, the `force` flag,
the result of `os.Create` and the results of the writes it attempts.  First
component: the write error the loop aborted with, which Go assigns to the
block-scoped `err` declared by `written, err :=` (flush failures are likewise
assigned to that block's `err`, without even a return).  Second component:
the function-scoped `err` transmitted by the deferred `ch <- err`; the
empty-file-name check, the exists-without-force check and the
`file, err := os.Create(fileName)` at function scope assign it (the worker
does not return after a failed create, so that error is what the deferred
send transmits), while header-write, chunk-write and flush failures never
do. -/
def writeWorkerRun (fileName : Bytes) (targetExists force : Bool)
    (createResult : Option String) (writeResults : List (Option String)) :
    Option String × Option String :=
  if fileName = [] then
    (none, some "empty string passed in for filename")
  else if targetExists && !force then
    (none, some "file already exists and overwriting was not specified")
  else
    (firstWriteFailure writeResults,
      createResult.map (fun e => "could not open file for writing: " ++ e))

/-! Key provisioning (`pipelineJobFromOpts`, `generateKey256FromString`,
`encoding/hex`). -/

/-- Value of an ASCII hex digit, as `encoding/hex` accepts it. -/
def hexDigitVal (c : Nat) : Option Nat :=
  if 48 ≤ c ∧ c ≤ 57 then some (c - 48)
  else if 97 ≤ c ∧ c ≤ 102 then some (c - 87)
  else if 65 ≤ c ∧ c ≤ 70 then some (c - 55)
  else none

/-- `hex.DecodeString` (Go standard library): pairs of hex digits to bytes;
fails on an odd-length input or a non-hex character. -/

def hexDecodeString : Bytes → Option Bytes
  | [] => some []
  | [_] => none
  | a :: b :: rest =>
    match hexDigitVal a, hexDigitVal b, hexDecodeString rest with
    | some x, some y, some r => some ((16 * x + y) :: r)
    | _, _, _ => none

/-- `generateKey256FromString` from the source: derives the key from the
password with PBKDF2 (`golang.org/x/crypto/pbkdf2`, external; modelled as the
parameter `kdf`) and checks the derived key is 32 bytes. -/

def generateKey256FromString (kdf : Bytes → Bytes) (keyMaterial : Bytes) :
    Except String Bytes :=
  let key := kdf keyMaterial
  if key.length = 32 then .ok key
  else .error "password key derivation function returned an invalid key length"

/-- The key-material selection of `pipelineJobFromOpts`: a non-empty hex key
string is decoded (an empty result of either branch, or a decode failure, or
a wrong length, rejects the job); only when the hex string is empty and the
password is not is the password-derived key used. -/

def pipelineJobKeyMaterial (kdf : Bytes → Bytes) (keyHex password : Bytes) :
    Except String Bytes :=
  let picked : Except String Bytes :=
    if keyHex ≠ [] then
      match hexDecodeString keyHex with
      | none => .error "error decoding hex string for key material"
      | some km => .ok km
    else if password ≠ [] then
      match generateKey256FromString kdf password with
      | .ok km => .ok km
      | .error _ => .error "error generating key material from password"
    else .ok []
  match picked with
  | .error e => .error e
  | .ok km =>
    if km.length ≠ 32 then
      .error "currently only 256 bit (32 byte) keys are supported"
    else .ok km

/-! Decomposition of the pipeline output into sealed chunks. -/

/-- The plaintext byte range of 0-based chunk `i`: start `i * C`, end clamped
to the file size. -/

def encPlainChunk (F : Bytes) (C i : Nat) : Bytes :=
  (F.drop (i * C)).take ((if F.length ≤ i * C + C then F.length else i * C + C) - i * C)

/-- The canonical sealed chunk `i`: its nonce, followed by the GCM seal of
plaintext chunk `i`. -/

def sealedChunk (A : AEADModel) (nonces : List Bytes) (key F : Bytes) (C i : Nat) : Bytes :=
  nonces.getD i [] ++ gcmSeal A key (nonces.getD i []) (encPlainChunk F C i)

/-- Concrete 32-byte key for evaluating theorems on explicit inputs. -/
def cKey : Bytes := List.replicate 32 0

/-- Concrete 12-byte nonce for evaluating theorems on explicit inputs. -/
def cNonce : Bytes := List.replicate 12 0

/-- The sealed blob `encryptBlobAESGCM256 trivAEAD cNonce [7] cKey`
produces. -/
def cSealed : Bytes := cNonce ++ ([7] ++ List.replicate 16 0)

/-- A parsed container header declaring 1 MiB chunks, used to evaluate the
decryption read ranges of a job that supplies a different chunk size. -/
def hdr1MiB : EncryptedFileHeader :=
  ⟨[49, 46, 48], 5, 1048576, [65, 69, 83], [71, 67, 77], 256⟩

theorem xorStream_length (ks : Nat → Nat) : ∀ (i : Nat) (l : Bytes),
    (xorStream ks i l).length = l.length := by
  intro i l
  induction l generalizing i with
  | nil => rfl
  | cons b rest ih => simp [xorStream, ih]

theorem xorStream_involutive (ks : Nat → Nat) : ∀ (i : Nat) (l : Bytes),
    xorStream ks i (xorStream ks i l) = l := by
  intro i l
  induction l generalizing i with
  | nil => rfl
  | cons b rest ih =>
    simp only [xorStream, ih]
    exact congrArg (· :: rest) (Nat.xor_cancel_right _ _)

theorem gcmSeal_length (A : AEADModel) (key nonce pt : Bytes) :
    (gcmSeal A key nonce pt).length = pt.length + 16 := by
  simp [gcmSeal, xorStream_length, A.tagOf_length]

theorem gcmOpen_gcmSeal (A : AEADModel) (key nonce pt : Bytes) :
    gcmOpen A key nonce (gcmSeal A key nonce pt) = some pt := by
  have hlen : (xorStream (A.keyStream key nonce) 0 pt).length = pt.length :=
    xorStream_length _ 0 pt
  have htag : (A.tagOf key nonce (xorStream (A.keyStream key nonce) 0 pt)).length = 16 :=
    A.tagOf_length ..
  have hseal : gcmSeal A key nonce pt =
      xorStream (A.keyStream key nonce) 0 pt ++
        A.tagOf key nonce (xorStream (A.keyStream key nonce) 0 pt) := rfl
  rw [gcmOpen, hseal]
  simp only [List.length_append, hlen, htag]
  rw [if_neg (by omega)]
  have harith : pt.length + 16 - 16 = (xorStream (A.keyStream key nonce) 0 pt).length := by omega
  rw [harith, List.take_left, List.drop_left]
  simp [xorStream_involutive]

theorem decryptBlob_encryptBlob (A : AEADModel) (nonce blob key out : Bytes)
    (hkey : key.length = 32) (hnonce : nonce.length = 12)
    (henc : encryptBlobAESGCM256 A nonce blob key = .ok out) :
    decryptBlobAESGCM256 A out key = .ok blob := by
  rw [encryptBlobAESGCM256, if_neg (by omega)] at henc
  cases henc
  have hslen : (gcmSeal A key nonce blob).length = blob.length + 16 := gcmSeal_length ..
  rw [decryptBlobAESGCM256, if_neg (by omega)]
  rw [if_neg (by simp only [List.length_append, hslen, hnonce, AESNonceSize, not_lt]; omega)]
  have htake : (nonce ++ gcmSeal A key nonce blob).take AESNonceSize = nonce := by
    rw [AESNonceSize, ← hnonce, List.take_left]
  have hdrop : (nonce ++ gcmSeal A key nonce blob).drop AESNonceSize = gcmSeal A key nonce blob := by
    rw [AESNonceSize, ← hnonce, List.drop_left]
  simp only [htake, hdrop, gcmOpen_gcmSeal]

theorem decDigitsRev_eq_digits : ∀ fuel n, n ≤ fuel → decDigitsRev fuel n = Nat.digits 10 n := by
  intro fuel
  induction fuel with
  | zero =>
    intro n hn
    have h0 : n = 0 := by omega
    subst h0
    exact (Nat.digits_zero 10).symm
  | succ f ih =>
    intro n hn
    match n with
    | 0 => exact (Nat.digits_zero 10).symm
    | m + 1 =>
      rw [show decDigitsRev (f + 1) (m + 1) = (m + 1) % 10 :: decDigitsRev f ((m + 1) / 10)
        from rfl]
      have hdiv : (m + 1) / 10 < m + 1 := Nat.div_lt_self (Nat.succ_pos m) (by norm_num)
      rw [ih ((m + 1) / 10) (by omega)]
      rw [Nat.digits_def' (show (1 : Nat) < 10 by norm_num) (Nat.succ_pos m)]

theorem stripLit_append (lit rest : Bytes) : stripLit lit (lit ++ rest) = some rest := by
  induction lit with
  | nil => rfl
  | cons b t ih => simp [stripLit, ih]

theorem parseStringBytes_append (s rest : Bytes) (h : ∀ b ∈ s, b ≠ 34) :
    parseStringBytes (s ++ 34 :: rest) = some (s, rest) := by
  induction s with
  | nil => simp [parseStringBytes]
  | cons b t ih =>
    have hb : b ≠ 34 := h b (by simp)
    simp [parseStringBytes, hb, ih (fun x hx => h x (by simp [hx]))]

theorem parseDigits_append (ds rest : Bytes) (hds : ∀ d ∈ ds, 48 ≤ d ∧ d ≤ 57)
    (hrest : ∀ b, rest.head? = some b → ¬(48 ≤ b ∧ b ≤ 57)) :
    parseDigits (ds ++ rest) = (ds, rest) := by
  induction ds with
  | nil =>
    simp only [List.nil_append]
    cases rest with
    | nil => rfl
    | cons b t =>
      have hnb := hrest b rfl
      simp [parseDigits, hnb]
  | cons d t ih =>
    have hd := hds d (by simp)
    simp [parseDigits, hd, ih (fun x hx => hds x (by simp [hx]))]

theorem decRender_mem (n : Nat) : ∀ d ∈ decRender n, 48 ≤ d ∧ d ≤ 57 := by
  intro d hd
  rw [decRender] at hd
  by_cases h : n = 0
  · rw [if_pos h] at hd
    simp at hd
    omega
  · rw [if_neg h, decDigitsRev_eq_digits n n le_rfl] at hd
    simp only [List.mem_map, List.mem_reverse] at hd
    obtain ⟨x, hx, hxd⟩ := hd
    have hlt := Nat.digits_lt_base (by norm_num) hx
    omega

theorem decRender_ne_nil (n : Nat) : decRender n ≠ [] := by
  rw [decRender]
  by_cases h : n = 0
  · simp [h]
  · rw [if_neg h, decDigitsRev_eq_digits n n le_rfl]
    have : Nat.digits 10 n ≠ [] := Nat.digits_ne_nil_iff_ne_zero.mpr h
    simp [this]

theorem foldl_decimal_reverse (l : List Nat) (a : Nat) :
    (l.reverse).foldl (fun x d => x * 10 + d) a = a * 10 ^ l.length + Nat.ofDigits 10 l := by
  induction l generalizing a with
  | nil => simp
  | cons d t ih =>
    simp only [List.reverse_cons, List.foldl_append, ih, List.foldl_cons, List.foldl_nil,
      Nat.ofDigits_cons, List.length_cons]
    ring

theorem foldl_decRender (n : Nat) :
    (decRender n).foldl (fun a d => a * 10 + (d - 48)) 0 = n := by
  rw [decRender]
  by_cases h : n = 0
  · simp [h]
  · rw [if_neg h, decDigitsRev_eq_digits n n le_rfl, List.foldl_map]
    simp only [Nat.add_sub_cancel]
    rw [foldl_decimal_reverse, Nat.ofDigits_digits]
    simp

theorem parseNumber_append (n : Nat) (rest : Bytes)
    (hrest : ∀ b, rest.head? = some b → ¬(48 ≤ b ∧ b ≤ 57)) :
    parseNumber (decRender n ++ rest) = some (n, rest) := by
  simp only [parseNumber]
  rw [parseDigits_append _ _ (decRender_mem n) hrest]
  simp [decRender_ne_nil n, foldl_decRender]

theorem parseHeaderJson_marshalHeaderJson (h : EncryptedFileHeader)
    (hfv : goodJSONString h.FormatVersion) (halg : goodJSONString h.Algorithm)
    (hmd : goodJSONString h.Mode) :
    parseHeaderJson (marshalHeaderJson h) = some h := by
  have hfv' : ∀ b ∈ h.FormatVersion, b ≠ 34 := fun b hb => (hfv b hb).2.2.1
  have halg' : ∀ b ∈ h.Algorithm, b ≠ 34 := fun b hb => (halg b hb).2.2.1
  have hmd' : ∀ b ∈ h.Mode, b ≠ 34 := fun b hb => (hmd b hb).2.2.1
  have h44 : ∀ (lit : Bytes), lit.head? = some 44 → ∀ (x : Bytes) (b : Nat),
      (lit ++ x).head? = some b → ¬(48 ≤ b ∧ b ≤ 57) := by
    intro lit hlit x b hb
    cases lit with
    | nil => simp at hlit
    | cons c t =>
      simp only [List.head?_cons, Option.some.injEq] at hlit
      simp only [List.cons_append, List.head?_cons, Option.some.injEq] at hb
      omega
  have h125 : ∀ (b : Nat), ([125] : Bytes).head? = some b → ¬(48 ≤ b ∧ b ≤ 57) := by
    intro b hb
    simp only [List.head?_cons, Option.some.injEq] at hb
    omega
  have hbind : ∀ {α β : Type} (a : α) (f : α → Option β), ((some a : Option α) >>= f) = f a :=
    fun _ _ => rfl
  have psFV : ∀ rest : Bytes, parseStringBytes (h.FormatVersion ++ 34 :: rest) =
      some (h.FormatVersion, rest) := fun rest => parseStringBytes_append _ _ hfv'
  have psAlg : ∀ rest : Bytes, parseStringBytes (h.Algorithm ++ 34 :: rest) =
      some (h.Algorithm, rest) := fun rest => parseStringBytes_append _ _ halg'
  have psMd : ∀ rest : Bytes, parseStringBytes (h.Mode ++ 34 :: rest) =
      some (h.Mode, rest) := fun rest => parseStringBytes_append _ _ hmd'
  have pnC : ∀ (n : Nat) (x : Bytes), parseNumber (decRender n ++ (jlChunkSizeBytes ++ x)) =
      some (n, jlChunkSizeBytes ++ x) :=
    fun n x => parseNumber_append n _ (h44 jlChunkSizeBytes rfl x)
  have pnA : ∀ (n : Nat) (x : Bytes), parseNumber (decRender n ++ (jlAlgorithm ++ x)) =
      some (n, jlAlgorithm ++ x) :=
    fun n x => parseNumber_append n _ (h44 jlAlgorithm rfl x)
  have pnEnd : ∀ n : Nat, parseNumber (decRender n ++ [125]) = some (n, [125]) :=
    fun n => parseNumber_append n _ h125
  have hstripEnd : stripLit [125] [125] = some [] := rfl
  simp only [marshalHeaderJson, parseHeaderJson, List.append_assoc, List.singleton_append,
    List.cons_append, List.nil_append, stripLit_append, hbind, psFV, psAlg, psMd, pnC, pnA,
    pnEnd, hstripEnd]
  rfl

theorem marshalHeaderJson_length (h : EncryptedFileHeader) :
    (marshalHeaderJson h).length =
      87 + h.FormatVersion.length + h.Algorithm.length + h.Mode.length +
        (decRender h.NumChunks).length + (decRender h.ChunkSizeBytes).length +
        (decRender h.KeySize).length := by
  simp [marshalHeaderJson, jlFormatVersion, jlNumChunks, jlChunkSizeBytes, jlAlgorithm,
    jlMode, jlKeySize]
  ring

theorem decRender_length_le (n k : Nat) (hk : 1 ≤ k) (h : n < 10 ^ k) :
    (decRender n).length ≤ k := by
  rw [decRender]
  by_cases h0 : n = 0
  · rw [if_pos h0]
    simpa using hk
  · rw [if_neg h0, decDigitsRev_eq_digits n n le_rfl]
    simp only [List.length_map, List.length_reverse]
    by_contra hc
    push_neg at hc
    have h2 := Nat.base_pow_length_digits_le 10 n (by norm_num) h0
    have h3 : (10 : Nat) ^ (k + 1) ≤ 10 ^ (Nat.digits 10 n).length :=
      Nat.pow_le_pow_right (by norm_num) (by omega)
    have h5 : (10 : Nat) ^ (k + 1) = 10 * 10 ^ k := by ring
    omega

theorem uint16_round (m : Nat) (hm : m < 65536) : m % 256 + 256 * (m / 256 % 256) = m := by
  omega

theorem getEncryptedFileHeaderFromBytes_round (h : EncryptedFileHeader)
    (hwf : wellFormedHeader h) :
    getEncryptedFileHeaderFromBytes (getCompleteEncryptedFileHeaderAsBytes h) =
      some (h, 2 + (marshalHeaderJson h).length) := by
  obtain ⟨hfv, halg, hmd, _, _, _, hlen⟩ := hwf
  have hm : (marshalHeaderJson h).length % 65536 = (marshalHeaderJson h).length :=
    Nat.mod_eq_of_lt hlen
  have hshape : getCompleteEncryptedFileHeaderAsBytes h =
      ((marshalHeaderJson h).length % 65536) % 256 ::
        ((marshalHeaderJson h).length % 65536) / 256 % 256 :: marshalHeaderJson h := rfl
  rw [getEncryptedFileHeaderFromBytes, hshape]
  rw [if_neg (by simp)]
  have hu : ∀ (x y : Nat) (J : Bytes),
      uint16FromBytes (x :: y :: J) = some (x % 256 + 256 * (y % 256)) := fun _ _ _ => rfl
  have hval : ((marshalHeaderJson h).length % 65536) % 256 % 256 +
      256 * (((marshalHeaderJson h).length % 65536) / 256 % 256 % 256) =
      (marshalHeaderJson h).length := by omega
  have hdrop : ∀ (x y : Nat) (J : Bytes), (x :: y :: J).drop 2 = J := fun _ _ _ => rfl
  simp only [hu, hval, hdrop, parseHeaderJson_marshalHeaderJson h hfv halg hmd]

theorem getEncryptedFileHeaderFromFileBytes_round (h : EncryptedFileHeader)
    (hwf : wellFormedHeader h) (body : Bytes) :
    getEncryptedFileHeaderFromFileBytes (getCompleteEncryptedFileHeaderAsBytes h ++ body) =
      some (h, 2 + (marshalHeaderJson h).length) := by
  obtain ⟨hfv, halg, hmd, _, _, _, hlen⟩ := hwf
  have hjlen : 87 ≤ (marshalHeaderJson h).length := by
    rw [marshalHeaderJson_length]
    omega
  have hshape : getCompleteEncryptedFileHeaderAsBytes h ++ body =
      ((marshalHeaderJson h).length % 65536) % 256 ::
        ((marshalHeaderJson h).length % 65536) / 256 % 256 ::
          (marshalHeaderJson h ++ body) := by
    simp [getCompleteEncryptedFileHeaderAsBytes, bytesFromUint16]
  rw [getEncryptedFileHeaderFromFileBytes, hshape]
  rw [if_neg (by simp; omega)]
  have hu : ∀ (x y : Nat) (J : Bytes),
      uint16FromBytes ((x :: y :: J).take 2) = some (x % 256 + 256 * (y % 256)) :=
    fun _ _ _ => rfl
  have hval : ((marshalHeaderJson h).length % 65536) % 256 % 256 +
      256 * (((marshalHeaderJson h).length % 65536) / 256 % 256 % 256) =
      (marshalHeaderJson h).length := by omega
  have hdrop : ∀ (x y : Nat) (J : Bytes), (x :: y :: J).drop 2 = J := fun _ _ _ => rfl
  have hcond : ¬((List.length (marshalHeaderJson h) % 65536 % 256 ::
      List.length (marshalHeaderJson h) % 65536 / 256 % 256 ::
        (marshalHeaderJson h ++ body)).length - 2 < List.length (marshalHeaderJson h)) := by
    simp only [List.length_cons, List.length_append]
    omega
  simp only [hu, hval, if_neg hcond, hdrop, List.take_left,
    parseHeaderJson_marshalHeaderJson h hfv halg hmd]

theorem workerOutput_canonical {α : Type} (vals : Nat → α) (n nw w : Nat) :
    ∀ p ∈ workerOutput vals n nw w, p.2 = vals p.1 := by
  intro p hp
  rw [workerOutput] at hp
  simp only [List.mem_map] at hp
  obtain ⟨j, _, rfl⟩ := hp
  rfl

theorem lookup_eq_of_canonical {α : Type} (l : List (Nat × α)) (i : Nat) (v : α)
    (hall : ∀ p ∈ l, p.1 = i → p.2 = v) (hmem : ∃ p ∈ l, p.1 = i) :
    List.lookup i l = some v := by
  induction l with
  | nil =>
    obtain ⟨p, hp, _⟩ := hmem
    simp at hp
  | cons q t ih =>
    obtain ⟨k, b⟩ := q
    by_cases hik : i = k
    · have hb : b = v := hall (k, b) (by simp) (by simp [hik])
      subst hik
      simp [List.lookup, hb]
    · rw [show List.lookup i ((k, b) :: t) = List.lookup i t by
        simp [List.lookup, beq_eq_false_iff_ne.mpr hik]]
      apply ih
      · intro p hp hpi
        exact hall p (by simp [hp]) hpi
      · obtain ⟨p, hp, hpi⟩ := hmem
        rcases List.mem_cons.mp hp with h1 | h2
        · exfalso
          rw [h1] at hpi
          exact hik hpi.symm
        · exact ⟨p, h2, hpi⟩

theorem assignedWorker_mem (nw i : Nat) (hnw : 1 ≤ nw) :
    assignedWorker nw (i + 1) ∈ (List.range nw).map (· + 1) := by
  simp only [List.mem_map, List.mem_range]
  rw [assignedWorker]
  by_cases h : (i + 1) % nw = 0
  · exact ⟨nw - 1, by omega, by rw [if_pos h]; omega⟩
  · have hlt : (i + 1) % nw < nw := Nat.mod_lt _ (by omega)
    exact ⟨(i + 1) % nw - 1, by omega, by rw [if_neg h]; omega⟩

theorem claimsChunk_assignedWorker (nw i : Nat) (hnw : 1 ≤ nw) :
    claimsChunk nw (i + 1) (assignedWorker nw (i + 1)) = true := by
  rw [claimsChunk, assignedWorker, idMatch]
  by_cases h : (i + 1) % nw = 0
  · simp [h]
  · rw [if_neg h]
    have hlt : (i + 1) % nw < nw := Nat.mod_lt _ (by omega)
    have hne : (i + 1) % nw ≠ nw := by omega
    simp [hne]

theorem partitionDeliver_eq {α : Type} (nw : Nat) (vals : Nat → α) (n i : Nat)
    (hnw : 1 ≤ nw) (hi : i < n) :
    partitionDeliver nw vals n i = some (vals i) := by
  rw [partitionDeliver]
  apply lookup_eq_of_canonical
  · intro p hp hpi
    simp only [List.mem_flatMap] at hp
    obtain ⟨w, _, hpw⟩ := hp
    have hc := workerOutput_canonical vals n nw w p hpw
    rw [hc, hpi]
  · refine ⟨(i, vals i), ?_, rfl⟩
    simp only [List.mem_flatMap]
    refine ⟨assignedWorker nw (i + 1), assignedWorker_mem nw i hnw, ?_⟩
    rw [workerOutput]
    simp only [List.mem_map, List.mem_filter, List.mem_range]
    exact ⟨i, ⟨hi, claimsChunk_assignedWorker nw i hnw⟩, rfl⟩

/-! Arithmetic facts about the chunk plan. -/

theorem numChunksFor_untrunc (s C : Nat) (hq : s / C + 1 < 2 ^ 32) :
    numChunksFor s C = s / C + (if s % C ≠ 0 then 1 else 0) := by
  rw [numChunksFor]
  have h1 : s / C % 2 ^ 32 = s / C := Nat.mod_eq_of_lt (by omega)
  rw [h1]
  exact Nat.mod_eq_of_lt (by by_cases h : s % C ≠ 0 <;> simp [h] <;> omega)

theorem numChunksFor_eq_ceil (s C : Nat) (hC : 1 ≤ C) (hq : s / C + 1 < 2 ^ 32) :
    numChunksFor s C = (s + C - 1) / C := by
  rw [numChunksFor_untrunc s C hq]
  rcases Nat.eq_zero_or_pos (s % C) with h | h
  · have hdm := Nat.div_add_mod s C
    rw [if_neg (by omega), Nat.add_zero]
    have h1 : s + C - 1 = (C - 1) + C * (s / C) := by
      generalize C * (s / C) = P at hdm ⊢
      omega
    rw [h1, Nat.add_mul_div_left _ _ (show 0 < C by omega),
      Nat.div_eq_of_lt (show C - 1 < C by omega)]
    omega
  · have hdm := Nat.div_add_mod s C
    have hr : s % C < C := Nat.mod_lt _ (by omega)
    rw [if_pos (by omega)]
    have h2 : C * (s / C + 1) = C * (s / C) + C := by ring
    have h1 : s + C - 1 = (s % C - 1) + C * (s / C + 1) := by
      rw [h2]
      generalize C * (s / C) = P at hdm ⊢
      omega
    rw [h1, Nat.add_mul_div_left _ _ (show 0 < C by omega),
      Nat.div_eq_of_lt (show s % C - 1 < C by omega)]
    omega

theorem numChunksFor_mul_ge (s C : Nat) (hC : 1 ≤ C) (hq : s / C + 1 < 2 ^ 32) :
    s ≤ numChunksFor s C * C := by
  rw [numChunksFor_untrunc s C hq, Nat.add_mul, Nat.mul_comm (s / C) C]
  have hdm := Nat.div_add_mod s C
  have hr : s % C < C := Nat.mod_lt _ (by omega)
  generalize C * (s / C) = P at hdm ⊢
  rcases Nat.eq_zero_or_pos (s % C) with h | h
  · rw [if_neg (by omega)]
    omega
  · rw [if_pos (by omega)]
    omega

theorem numChunksFor_pos (s C : Nat) (hC : 1 ≤ C) (hs : 1 ≤ s) (hq : s / C + 1 < 2 ^ 32) :
    1 ≤ numChunksFor s C := by
  rw [numChunksFor_untrunc s C hq]
  rcases Nat.eq_zero_or_pos (s % C) with h | h
  · rw [if_neg (by omega)]
    have hdm := Nat.div_add_mod s C
    generalize hP : C * (s / C) = P at hdm
    rcases Nat.eq_zero_or_pos (s / C) with h0 | h0
    · rw [h0, Nat.mul_zero] at hP
      omega
    · omega
  · rw [if_pos (by omega)]
    exact Nat.le_add_left 1 _

theorem numChunksFor_pred_mul_lt (s C : Nat) (hC : 1 ≤ C) (hs : 1 ≤ s)
    (hq : s / C + 1 < 2 ^ 32) :
    (numChunksFor s C - 1) * C < s := by
  rw [numChunksFor_untrunc s C hq]
  have hdm := Nat.div_add_mod s C
  have hr : s % C < C := Nat.mod_lt _ (by omega)
  rcases Nat.eq_zero_or_pos (s % C) with h | h
  · rw [if_neg (by omega), Nat.add_zero, Nat.sub_mul, Nat.one_mul, Nat.mul_comm (s / C) C]
    have h0 : 1 ≤ s / C := by
      by_contra h0
      push_neg at h0
      have h1 : s / C = 0 := Nat.lt_one_iff.mp h0
      rw [h1, Nat.mul_zero] at hdm
      omega
    generalize hP : C * (s / C) = P at hdm ⊢
    have hCP : C ≤ P := by
      rw [← hP]
      calc C = C * 1 := by ring
      _ ≤ C * (s / C) := Nat.mul_le_mul_left C h0
    omega
  · rw [if_pos (by omega), Nat.add_sub_cancel, Nat.mul_comm (s / C) C]
    generalize C * (s / C) = P at hdm ⊢
    omega

theorem numChunksFor_le_size (s C : Nat) (hC : 1 ≤ C) (hs : 1 ≤ s) (hq : s / C + 1 < 2 ^ 32) :
    numChunksFor s C ≤ s := by
  rw [numChunksFor_untrunc s C hq]
  rcases Nat.eq_zero_or_pos (s % C) with h | h
  · rw [if_neg (by omega)]
    have := Nat.div_le_self s C
    omega
  · rw [if_pos (by omega)]
    rcases Nat.lt_or_ge C 2 with h2 | h2
    · have hC1 : C = 1 := by omega
      rw [hC1] at h
      simp [Nat.mod_one] at h
    · have := Nat.div_lt_self (by omega : 0 < s) (by omega : 1 < C)
      omega

theorem mul_lt_of_lt_numChunks (s C i : Nat) (hC : 1 ≤ C) (hs : 1 ≤ s)
    (hq : s / C + 1 < 2 ^ 32) (hi : i + 1 < numChunksFor s C) : (i + 1) * C < s := by
  have h1 : i + 1 ≤ numChunksFor s C - 1 := by omega
  exact lt_of_le_of_lt (Nat.mul_le_mul_right C h1) (numChunksFor_pred_mul_lt s C hC hs hq)

theorem encReadChunk_eq (F : Bytes) (chunkSizeMB i : Nat) :
    encReadChunk F chunkSizeMB i = encPlainChunk F (bytesFromMB chunkSizeMB) i := rfl

theorem flatMap_congr_mem {α β : Type} (l : List α) (f g : α → List β)
    (h : ∀ a ∈ l, f a = g a) : l.flatMap f = l.flatMap g := by
  induction l with
  | nil => rfl
  | cons x t ih =>
    rw [List.flatMap_cons, List.flatMap_cons, h x (by simp),
      ih (fun a ha => h a (by simp [ha]))]

theorem encWritten_eq (A : AEADModel) (nonces : List Bytes) (key F : Bytes)
    (chunkSizeMB R T n i : Nat) (hkey : key.length = 32) (hR : 1 ≤ R) (hT : 1 ≤ T)
    (hi : i < n) :
    encWritten A nonces key F chunkSizeMB R T n i =
      sealedChunk A nonces key F (bytesFromMB chunkSizeMB) i := by
  rw [encWritten, partitionDeliver_eq T (encSealed A nonces key F chunkSizeMB R n) n i hT hi,
    Option.getD_some]
  rw [encSealed, encDelivered, partitionDeliver_eq R (encReadChunk F chunkSizeMB) n i hR hi,
    Option.getD_some]
  rw [encryptBlobAESGCM256, if_neg (by omega)]
  rw [encReadChunk_eq]
  rfl

theorem pipelineEncryptBytes_canonical (A : AEADModel) (nonces : List Bytes) (key F : Bytes)
    (chunkSizeMB R T : Nat) (hkey : key.length = 32) (hR : 1 ≤ R) (hT : 1 ≤ T) :
    pipelineEncryptBytes A nonces key F chunkSizeMB R T =
      .ok (getCompleteEncryptedFileHeaderAsBytes
          (writeStageHeader (numChunksFor F.length (bytesFromMB chunkSizeMB)) chunkSizeMB) ++
        (List.range (numChunksFor F.length (bytesFromMB chunkSizeMB))).flatMap
          (sealedChunk A nonces key F (bytesFromMB chunkSizeMB))) := by
  rw [pipelineEncryptBytes, if_neg (by omega)]
  congr 2
  apply flatMap_congr_mem
  intro i hi
  exact encWritten_eq A nonces key F chunkSizeMB R T _ i hkey hR hT (List.mem_range.mp hi)

theorem take_drop_append_drop (F : Bytes) (s e : Nat) (hse : s ≤ e) (he : e ≤ F.length) :
    (F.drop s).take (e - s) ++ F.drop e = F.drop s := by
  have h1 : F.drop e = (F.drop s).drop (e - s) := by
    rw [List.drop_drop]
    congr 1
    omega
  rw [h1, List.take_append_drop]

theorem flatMap_encPlainChunk (F : Bytes) (C n : Nat) (hn : F.length ≤ n * C) :
    ∀ m k, n - k = m → (List.range' k m).flatMap (encPlainChunk F C) = F.drop (k * C) := by
  intro m
  induction m with
  | zero =>
    intro k hk
    have hkn : n ≤ k := by omega
    have hlen : F.length ≤ k * C := le_trans hn (Nat.mul_le_mul_right C hkn)
    rw [show List.range' k 0 = [] from rfl, List.flatMap_nil,
      List.drop_eq_nil_of_le hlen]
  | succ m ih =>
    intro k hk
    rw [List.range'_succ k m 1, List.flatMap_cons, ih (k + 1) (by omega), encPlainChunk]
    rcases Nat.lt_or_ge (k * C + C) F.length with hlt | hge
    · rw [if_neg (by omega)]
      have h1 : (k + 1) * C = k * C + C := by ring
      rw [h1]
      exact take_drop_append_drop F (k * C) (k * C + C) (by omega) (by omega)
    · rw [if_pos (by omega)]
      have h1 : (k + 1) * C = k * C + C := by ring
      have h2 : F.drop ((k + 1) * C) = [] := List.drop_eq_nil_of_le (by omega)
      rw [h2, List.append_nil]
      have h3 : F.length - k * C = (F.drop (k * C)).length := (List.length_drop ..).symm
      rw [h3, List.take_length]

theorem encPlainChunk_length_full (F : Bytes) (C i : Nat)
    (hend : i * C + C ≤ F.length) :
    (encPlainChunk F C i).length = C := by
  rw [encPlainChunk]
  by_cases hcond : F.length ≤ i * C + C
  · rw [if_pos hcond, List.length_take, List.length_drop]
    omega
  · rw [if_neg hcond, List.length_take, List.length_drop]
    omega

theorem encPlainChunk_length_last (F : Bytes) (C i : Nat)
    (hstart : i * C < F.length) (hend : F.length ≤ i * C + C) :
    (encPlainChunk F C i).length = F.length - i * C := by
  rw [encPlainChunk, if_pos hend, List.length_take, List.length_drop]
  omega

theorem sealedChunk_length (A : AEADModel) (nonces : List Bytes) (key F : Bytes) (C i : Nat)
    (hni : (nonces.getD i []).length = 12) :
    (sealedChunk A nonces key F C i).length = 28 + (encPlainChunk F C i).length := by
  rw [sealedChunk, List.length_append, hni, gcmSeal_length]
  omega

theorem flatMap_range_drop (SV : Nat → Bytes) (n st : Nat)
    (hlen : ∀ j, j + 1 < n → (SV j).length = st)
    (hlast : ∀ j, j + 1 = n → (SV j).length ≤ st) :
    ∀ k, k ≤ n →
      ((List.range n).flatMap SV).drop (k * st) = (List.range' k (n - k)).flatMap SV := by
  intro k
  induction k with
  | zero =>
    intro _
    rw [Nat.zero_mul, List.drop_zero, List.range_eq_range']
    norm_num
  | succ k ih =>
    intro hk1
    have hk : k ≤ n := by omega
    have h1 : (k + 1) * st = k * st + st := by ring
    rw [h1, ← List.drop_drop, ih hk]
    have hr : n - k = (n - k - 1) + 1 := by omega
    rw [hr, List.range'_succ k (n - k - 1) 1, List.flatMap_cons]
    rcases Nat.lt_or_ge (k + 1) n with hlt | hge
    · have hsv : (SV k).length = st := hlen k hlt
      rw [← hsv, List.drop_left]
      have h2 : n - k - 1 = n - (k + 1) := by omega
      rw [h2]
    · have hkn : k + 1 = n := by omega
      have h0 : n - k - 1 = 0 := by omega
      rw [h0, show List.range' (k + 1) 0 1 = [] from rfl, List.flatMap_nil, List.append_nil]
      have h2 : n - (k + 1) = 0 := by omega
      rw [h2, show List.range' (k + 1) 0 1 = [] from rfl, List.flatMap_nil]
      exact List.drop_eq_nil_of_le (hlast k hkn)

theorem flatMap_range_chunk_slice (SV : Nat → Bytes) (n st : Nat)
    (hlen : ∀ j, j + 1 < n → (SV j).length = st)
    (hlast : ∀ j, j + 1 = n → (SV j).length ≤ st)
    (i : Nat) (hi : i + 1 < n) :
    (((List.range n).flatMap SV).drop (i * st)).take st = SV i := by
  rw [flatMap_range_drop SV n st hlen hlast i (by omega)]
  rw [show n - i = (n - i - 1) + 1 by omega, List.range'_succ i (n - i - 1) 1,
    List.flatMap_cons]
  rw [← hlen i hi]
  exact List.take_left ..

theorem flatMap_range_last_slice (SV : Nat → Bytes) (n st : Nat)
    (hlen : ∀ j, j + 1 < n → (SV j).length = st)
    (hlast : ∀ j, j + 1 = n → (SV j).length ≤ st) (hn : 1 ≤ n) :
    ((List.range n).flatMap SV).drop ((n - 1) * st) = SV (n - 1) := by
  rw [flatMap_range_drop SV n st hlen hlast (n - 1) (by omega)]
  rw [show n - (n - 1) = 1 by omega, show List.range' (n - 1) 1 1 = [n - 1] from rfl]
  rw [List.flatMap_cons, List.flatMap_nil, List.append_nil]

theorem flatMap_range_length (SV : Nat → Bytes) (n st : Nat)
    (hlen : ∀ j, j + 1 < n → (SV j).length = st)
    (hlast : ∀ j, j + 1 = n → (SV j).length ≤ st) (hn : 1 ≤ n)
    (hpos : 1 ≤ (SV (n - 1)).length) :
    ((List.range n).flatMap SV).length = (n - 1) * st + (SV (n - 1)).length := by
  have h := congrArg List.length (flatMap_range_last_slice SV n st hlen hlast hn)
  rw [List.length_drop] at h
  omega

theorem writeStageHeader_wellFormed (n cMB : Nat) (hn : n < 2 ^ 32)
    (hcsb : bytesFromMB cMB < 2 ^ 63) :
    wellFormedHeader (writeStageHeader n cMB) := by
  refine ⟨?_, ?_, ?_, hn, hcsb, ?_, ?_⟩
  · exact (by decide : goodJSONString [49, 46, 48])
  · exact (by decide : goodJSONString [65, 69, 83])
  · exact (by decide : goodJSONString [71, 67, 77])
  · exact (by norm_num : (256 : Nat) < 2 ^ 63)
  rw [marshalHeaderJson_length]
  have h1 : (decRender n).length ≤ 20 :=
    decRender_length_le n 20 (by norm_num) (lt_of_lt_of_le hn (by norm_num))
  have h2 : (decRender (bytesFromMB cMB)).length ≤ 20 :=
    decRender_length_le _ 20 (by norm_num) (lt_of_lt_of_le hcsb (by norm_num))
  have h3 : (decRender 256).length ≤ 20 :=
    decRender_length_le 256 20 (by norm_num) (by norm_num)
  simp only [writeStageHeader]
  simp only [List.length_cons, List.length_nil]
  omega

theorem foldl_writeFoldStep_ok (w : Nat → GoResult Bytes) (vals : Nat → Bytes) :
    ∀ (l : List Nat), (∀ i ∈ l, w i = .ok (vals i)) → ∀ acc : Bytes,
      l.foldl (fun a i => writeFoldStep a (w i)) (.ok acc) = .ok (acc ++ l.flatMap vals) := by
  intro l
  induction l with
  | nil =>
    intro _ acc
    simp
  | cons x t ih =>
    intro h acc
    rw [List.foldl_cons, h x (by simp),
      show writeFoldStep (.ok acc) (.ok (vals x)) = .ok (acc ++ vals x) from rfl,
      ih (fun i hi => h i (by simp [hi])) (acc ++ vals x), List.flatMap_cons,
      List.append_assoc]

theorem decReadChunk_eq (hdr : EncryptedFileHeader) (D : Bytes) (cMB eoh i : Nat) :
    decReadChunk hdr D cMB eoh i =
      (D.drop (eoh + i * (12 + bytesFromMB cMB + 16))).take
        ((if D.length ≤ eoh + i * (12 + bytesFromMB cMB + 16) + 12 + bytesFromMB cMB + 16
            then D.length
            else eoh + i * (12 + bytesFromMB cMB + 16) + 12 + bytesFromMB cMB + 16) -
          (eoh + i * (12 + bytesFromMB cMB + 16))) := rfl

theorem pipelineDecrypt_canonical (A : AEADModel) (nonces : List Bytes) (key F : Bytes)
    (cMB R T : Nat)
    (hkey : key.length = 32) (hcMB : 1 ≤ cMB) (hcMB64 : cMB ≤ 64)
    (hs : 1 ≤ F.length) (hbig : F.length < 2 ^ 51)
    (hnlen : nonces.length = numChunksFor F.length (bytesFromMB cMB))
    (hn12 : ∀ x ∈ nonces, x.length = 12)
    (hR : 1 ≤ R) (hT : 1 ≤ T) :
    pipelineDecryptBytes A key
      (getCompleteEncryptedFileHeaderAsBytes
          (writeStageHeader (numChunksFor F.length (bytesFromMB cMB)) cMB) ++
        (List.range (numChunksFor F.length (bytesFromMB cMB))).flatMap
          (sealedChunk A nonces key F (bytesFromMB cMB)))
      cMB R T = .ok F := by
  set C := bytesFromMB cMB with hCdef
  set n := numChunksFor F.length C with hndef
  set SV := sealedChunk A nonces key F C with hSVdef
  set hdr := writeStageHeader n cMB with hhdrdef
  set H := getCompleteEncryptedFileHeaderAsBytes hdr with hHdef
  set B := (List.range n).flatMap SV with hBdef
  have hC20 : 2 ^ 20 ≤ C := by
    rw [hCdef, bytesFromMB]
    calc (2 : Nat) ^ 20 = 1 * 1024 * 1024 := by norm_num
    _ ≤ cMB * 1024 * 1024 :=
      Nat.mul_le_mul_right 1024 (Nat.mul_le_mul_right 1024 hcMB)
  have hC : 1 ≤ C := le_trans (by norm_num) hC20
  have hq : F.length / C + 1 < 2 ^ 32 := by
    have h1 : F.length / C ≤ F.length / 2 ^ 20 :=
      Nat.div_le_div_left hC20 (by norm_num)
    have h2 : F.length / 2 ^ 20 < 2 ^ 31 := by
      rw [Nat.div_lt_iff_lt_mul (by norm_num : (0 : Nat) < 2 ^ 20)]
      calc F.length < 2 ^ 51 := hbig
      _ = 2 ^ 31 * 2 ^ 20 := by norm_num
    omega
  have hn1 : 1 ≤ n := numChunksFor_pos F.length C hC hs hq
  have hnles : F.length ≤ n * C := numChunksFor_mul_ge F.length C hC hq
  have hpred : (n - 1) * C < F.length := numChunksFor_pred_mul_lt F.length C hC hs hq
  have hn32 : n < 2 ^ 32 := by
    rw [hndef, numChunksFor]
    exact Nat.mod_lt _ (by norm_num)
  have hC63 : C < 2 ^ 63 := by
    rw [hCdef, bytesFromMB]
    calc cMB * 1024 * 1024 ≤ 64 * 1024 * 1024 :=
      Nat.mul_le_mul_right 1024 (Nat.mul_le_mul_right 1024 hcMB64)
    _ < 2 ^ 63 := by norm_num
  have hwf : wellFormedHeader hdr := writeStageHeader_wellFormed n cMB hn32 hC63
  have hni : ∀ i, i < n → (nonces.getD i []).length = 12 := by
    intro i hi
    have hilt : i < nonces.length := by omega
    rw [List.getD_eq_getElem nonces [] hilt]
    exact hn12 _ (List.getElem_mem hilt)
  have hprod : (n - 1) * C + C = n * C := by
    obtain ⟨m, hm⟩ : ∃ m, n = m + 1 := ⟨n - 1, by omega⟩
    rw [hm]
    simp
    ring
  have hfull : ∀ j, j + 1 < n → (encPlainChunk F C j).length = C := by
    intro j hj
    apply encPlainChunk_length_full
    have h1 := mul_lt_of_lt_numChunks F.length C j hC hs hq hj
    have h2 : (j + 1) * C = j * C + C := by ring
    omega
  have hlastpt : (encPlainChunk F C (n - 1)).length = F.length - (n - 1) * C := by
    apply encPlainChunk_length_last
    · exact hpred
    · omega
  have hSVlen : ∀ j, j + 1 < n → (SV j).length = 28 + C := by
    intro j hj
    rw [hSVdef, sealedChunk_length A nonces key F C j (hni j (by omega)), hfull j hj]
  have hSVlast_le : ∀ j, j + 1 = n → (SV j).length ≤ 28 + C := by
    intro j hj
    have hj' : j = n - 1 := by omega
    rw [hSVdef, sealedChunk_length A nonces key F C j (hni j (by omega)), hj', hlastpt]
    omega
  have hlast_pos : 1 ≤ (SV (n - 1)).length := by
    rw [hSVdef, sealedChunk_length A nonces key F C (n - 1) (hni (n - 1) (by omega))]
    omega
  have hlastSV : (SV (n - 1)).length = 28 + (F.length - (n - 1) * C) := by
    rw [hSVdef, sealedChunk_length A nonces key F C (n - 1) (hni (n - 1) (by omega)), hlastpt]
  have hlenB : B.length = (n - 1) * (28 + C) + (SV (n - 1)).length := by
    rw [hBdef]
    exact flatMap_range_length SV n (28 + C) hSVlen hSVlast_le hn1 hlast_pos
  have hHlen : H.length = 2 + (marshalHeaderJson hdr).length := by
    rw [hHdef, getCompleteEncryptedFileHeaderAsBytes]
    simp [bytesFromUint16]
    omega
  have hparse : getEncryptedFileHeaderFromFileBytes (H ++ B) =
      some (hdr, 2 + (marshalHeaderJson hdr).length) := by
    rw [hHdef]
    exact getEncryptedFileHeaderFromFileBytes_round hdr hwf B
  have hchunk : ∀ i, i < n → decReadChunk hdr (H ++ B) cMB H.length i = SV i := by
    intro i hi
    rw [decReadChunk_eq, ← hCdef]
    have hD : (H ++ B).length = H.length + B.length := List.length_append ..
    rcases Nat.lt_or_ge (i + 1) n with hilt | hige
    · have hmul : (i + 1) * (28 + C) ≤ (n - 1) * (28 + C) :=
        Nat.mul_le_mul_right (28 + C) (by omega)
      have heq : i * (12 + C + 16) + 12 + C + 16 = (i + 1) * (28 + C) := by ring
      have hcond : ¬ ((H ++ B).length ≤
          H.length + i * (12 + C + 16) + 12 + C + 16) := by
        rw [hD, hlenB]
        omega
      rw [if_neg hcond]
      have hamt : H.length + i * (12 + C + 16) + 12 + C + 16 -
          (H.length + i * (12 + C + 16)) = 28 + C := by omega
      rw [hamt]
      have hdrop : (H ++ B).drop (H.length + i * (12 + C + 16)) =
          B.drop (i * (28 + C)) := by
        have h1 : H.length + i * (12 + C + 16) = H.length + i * (28 + C) := by
          have h2 : i * (12 + C + 16) = i * (28 + C) := by ring
          omega
        rw [h1, ← List.drop_drop, List.drop_left]
      rw [hdrop]
      exact flatMap_range_chunk_slice SV n (28 + C) hSVlen hSVlast_le i hilt
    · have hieq : i = n - 1 := by omega
      have heq : i * (12 + C + 16) = (n - 1) * (28 + C) := by
        rw [hieq]
        ring
      have hcond : (H ++ B).length ≤
          H.length + i * (12 + C + 16) + 12 + C + 16 := by
        rw [hD, hlenB]
        have hle := hSVlast_le (n - 1) (by omega)
        omega
      rw [if_pos hcond]
      have hdrop : (H ++ B).drop (H.length + i * (12 + C + 16)) =
          B.drop ((n - 1) * (28 + C)) := by
        rw [heq, ← List.drop_drop, List.drop_left]
      have hamt : (H ++ B).length - (H.length + i * (12 + C + 16)) =
          (SV (n - 1)).length := by
        rw [hD, hlenB]
        omega
      rw [hdrop, hamt, flatMap_range_last_slice SV n (28 + C) hSVlen hSVlast_le hn1,
        List.take_length, hieq]
  have hexec : ∀ i, i < n →
      decExec A key hdr (H ++ B) cMB H.length R n i = .ok (encPlainChunk F C i) := by
    intro i hi
    rw [decExec, decDelivered,
      partitionDeliver_eq R (decReadChunk hdr (H ++ B) cMB H.length) n i hR hi,
      Option.getD_some, hchunk i hi]
    apply decryptBlob_encryptBlob A (nonces.getD i []) (encPlainChunk F C i) key (SV i)
      hkey (hni i hi)
    rw [encryptBlobAESGCM256, if_neg (by omega)]
    rfl
  have hwritten : ∀ i ∈ List.range n,
      decWritten A key hdr (H ++ B) cMB H.length R T n i = .ok (encPlainChunk F C i) := by
    intro i hi
    have hi' := List.mem_range.mp hi
    rw [decWritten,
      partitionDeliver_eq T (decExec A key hdr (H ++ B) cMB H.length R n) n i hT hi',
      Option.getD_some]
    exact hexec i hi'
  have hflat : (List.range n).flatMap (encPlainChunk F C) = F := by
    have h := flatMap_encPlainChunk F C n hnles n 0 (by omega)
    rw [Nat.zero_mul, List.drop_zero] at h
    rw [List.range_eq_range']
    simpa using h
  have hNC : hdr.NumChunks = n := rfl
  simp only [pipelineDecryptBytes, hparse]
  rw [if_neg (by omega), ← hHlen, hNC]
  rw [foldl_writeFoldStep_ok (decWritten A key hdr (H ++ B) cMB H.length R T n)
    (encPlainChunk F C) (List.range n) hwritten []]
  rw [List.nil_append, hflat]

theorem collect_last_aux (label : String) :
    ∀ (rs : List (Option String)) (a : Option String),
      rs.foldl
          (fun acc r =>
            match r with
            | none => acc
            | some e => some (label ++ e))
          (a.map (fun e => label ++ e)) =
        (rs.foldl
            (fun acc r =>
              match r with
              | none => acc
              | some e => some e)
            a).map (fun e => label ++ e) := by
  intro rs
  induction rs with
  | nil => intro a; rfl
  | cons r t ih =>
    intro a
    rw [List.foldl_cons, List.foldl_cons]
    cases r with
    | none => exact ih a
    | some e => exact ih (some e)

theorem collectWorkerErrors_eq_last (label : String) (rs : List (Option String)) :
    collectWorkerErrors label rs = (lastWorkerError rs).map (fun e => label ++ e) := by
  have h := collect_last_aux label rs none
  simpa [collectWorkerErrors, lastWorkerError] using h

/-- C1 counterexample: the round trip fails as stated for a source of
2 ^ 52 bytes with 1 MiB chunks: the `uint32` cast in the chunk count wraps
4294967296 chunks to 0, encryption completes with a header-only output, and
decryption returns the empty byte sequence rather than the source. -/
theorem claim1_counterexample :
    pipelineEncryptBytes trivAEAD [] cKey (List.replicate 4503599627370496 0) 1 6 12 =
      .ok (getCompleteEncryptedFileHeaderAsBytes (writeStageHeader 0 1)) ∧
    pipelineDecryptBytes trivAEAD cKey
      (getCompleteEncryptedFileHeaderAsBytes (writeStageHeader 0 1)) 1 6 12 = .ok [] ∧
    ([] : Bytes) ≠ List.replicate 4503599627370496 0 := by
  have hlen : (List.replicate 4503599627370496 (0 : Nat)).length = 4503599627370496 :=
    List.length_replicate ..
  have hn0 : numChunksFor 4503599627370496 (bytesFromMB 1) = 0 := by decide
  refine ⟨?_, rfl, ?_⟩
  · rw [pipelineEncryptBytes, if_neg (by decide), hlen, hn0]
    rfl
  · intro h
    have hc := congrArg List.length h
    rw [List.length_nil, List.length_replicate] at hc
    exact absurd hc (by decide)

/-- C1 amended: for every AEAD instance, 32-byte key and 12-byte nonce,
decrypting the sealed form of a non-empty blob returns exactly the blob; and
at the file level, decrypting the pipeline encryption output of a non-empty
file (same key, same chunk_size_mb in [1,64], any reader counts in [1,30]
and executor counts in [1,60] on either side) returns exactly the file,
provided the file is small enough that the `uint32` chunk count does not
wrap (below 2 ^ 51 bytes suffices for every permitted chunk size). -/
theorem claim1_roundtrip (A : AEADModel) (key : Bytes) (hkey : key.length = 32)
    (B nonce out : Bytes) (hB : B ≠ []) (hnonce : nonce.length = 12)
    (henc : encryptBlobAESGCM256 A nonce B key = .ok out)
    (F : Bytes) (nonces : List Bytes) (cMB R T R' T' : Nat)
    (hF : F ≠ []) (hbig : F.length < 2 ^ 51)
    (hcMB : 1 ≤ cMB) (hcMB64 : cMB ≤ 64)
    (hR : 1 ≤ R) (hR30 : R ≤ 30) (hT : 1 ≤ T) (hT60 : T ≤ 60)
    (hR' : 1 ≤ R') (hR30' : R' ≤ 30) (hT' : 1 ≤ T') (hT60' : T' ≤ 60)
    (hnlen : nonces.length = numChunksFor F.length (bytesFromMB cMB))
    (hn12 : ∀ x ∈ nonces, x.length = 12) :
    decryptBlobAESGCM256 A out key = .ok B ∧
    ∃ out2, pipelineEncryptBytes A nonces key F cMB R T = .ok out2 ∧
      pipelineDecryptBytes A key out2 cMB R' T' = .ok F := by
  constructor
  · exact decryptBlob_encryptBlob A nonce B key out hkey hnonce henc
  · refine ⟨_, pipelineEncryptBytes_canonical A nonces key F cMB R T hkey hR hT, ?_⟩
    exact pipelineDecrypt_canonical A nonces key F cMB R' T' hkey hcMB hcMB64
      (List.length_pos.mpr hF) hbig hnlen hn12 hR' hT'

theorem claim1_roundtrip_witness :
    decryptBlobAESGCM256 trivAEAD cSealed cKey = .ok [7] ∧
    ∃ out2, pipelineEncryptBytes trivAEAD [cNonce] cKey [1, 2, 3] 1 6 12 = .ok out2 ∧
      pipelineDecryptBytes trivAEAD cKey out2 1 1 1 = .ok [1, 2, 3] :=
  claim1_roundtrip trivAEAD cKey (by decide) [7] cNonce cSealed (by decide) (by decide) rfl
    [1, 2, 3] [cNonce] 1 6 12 1 1 (by decide) (by decide) (by decide) (by decide)
    (by decide) (by decide) (by decide) (by decide) (by decide) (by decide) (by decide)
    (by decide) (by decide) (by decide)

/-- C2: contrary to the claim, the decryption read ranges computed by the
read stage do not depend on the parsed header at all, and do depend on the
chunk_size_mb supplied with the decryption job: with a header declaring
1 MiB chunks, a job supplying chunk_size_mb = 2 yields the 2 MiB stride
12 + 2097152 + 16, not the header stride.  (The conductor does override
num_chunks from the header, but not chunk_size_bytes.) -/
theorem claim2_decrypt_ranges_use_job_chunk_size :
    (∀ (h1 h2 : EncryptedFileHeader) (cMB eoh size i : Nat),
        readStageRequest .Decryption cMB h1 eoh size i =
          readStageRequest .Decryption cMB h2 eoh size i) ∧
    readStageRequest .Decryption 2 hdr1MiB 113 (10 ^ 9) 1 =
      some ⟨2, 113 + (12 + 2097152 + 16), 113 + 2 * (12 + 2097152 + 16)⟩ ∧
    readStageRequest .Decryption 2 hdr1MiB 113 (10 ^ 9) 1 ≠
      readStageRequest .Decryption 1 hdr1MiB 113 (10 ^ 9) 1 := by
  refine ⟨fun h1 h2 cMB eoh size i => rfl, by decide, by decide⟩

/-- C3: contrary to the claim, an encryption job over a zero-byte source is
not rejected: the chunk count is zero and the pipeline completes
successfully, writing the container header and no sealed chunks. -/
theorem claim3_zero_byte_encrypt_succeeds :
    numChunksFor 0 (bytesFromMB 8) = 0 ∧
    pipelineEncryptBytes trivAEAD [] cKey [] 8 6 12 =
      .ok (getCompleteEncryptedFileHeaderAsBytes (writeStageHeader 0 8)) ∧
    ∀ e, pipelineEncryptBytes trivAEAD [] cKey [] 8 6 12 ≠ .error e := by
  refine ⟨by decide, rfl, fun e h => ?_⟩
  rw [show pipelineEncryptBytes trivAEAD [] cKey [] 8 6 12 =
    .ok (getCompleteEncryptedFileHeaderAsBytes (writeStageHeader 0 8)) from rfl] at h
  exact Except.noConfusion h

/-- C4 counterexample: on the empty input with a valid 32-byte key,
decryptBlobAESGCM256 does not return an error value: the nonce slicing
panics, so the function is not total on inputs shorter than 12 bytes. -/
theorem claim4_counterexample :
    decryptBlobAESGCM256 trivAEAD [] cKey =
      .crash "runtime error: slice bounds out of range" ∧
    ∀ e, decryptBlobAESGCM256 trivAEAD [] cKey ≠ .err e := by
  refine ⟨rfl, fun e h => ?_⟩
  rw [show decryptBlobAESGCM256 trivAEAD [] cKey =
    .crash "runtime error: slice bounds out of range" from rfl] at h
  exact GoResult.noConfusion h

/-- C4 amended: for every 32-byte key, decryptBlobAESGCM256 returns an error
value (never panics) on every input of at least 12 bytes, in particular when
the input is shorter than 28 bytes or when the AEAD open fails; on inputs
shorter than the 12-byte nonce prefix it panics instead of returning an
error. -/
theorem claim4_amended (A : AEADModel) (S key : Bytes) (hkey : key.length = 32) :
    (12 ≤ S.length → S.length < 28 →
      decryptBlobAESGCM256 A S key =
        .err "could not decrypt the data using the provided key material") ∧
    (12 ≤ S.length → gcmOpen A key (S.take 12) (S.drop 12) = none →
      decryptBlobAESGCM256 A S key =
        .err "could not decrypt the data using the provided key material") ∧
    (12 ≤ S.length → ∀ m, decryptBlobAESGCM256 A S key ≠ .crash m) ∧
    (S.length < 12 →
      decryptBlobAESGCM256 A S key = .crash "runtime error: slice bounds out of range") := by
  have hcore : 12 ≤ S.length → gcmOpen A key (S.take 12) (S.drop 12) = none →
      decryptBlobAESGCM256 A S key =
        .err "could not decrypt the data using the provided key material" := by
    intro h1 h2
    rw [decryptBlobAESGCM256, if_neg (by omega)]
    rw [if_neg (by simp only [AESNonceSize]; omega)]
    simp only [AESNonceSize]
    rw [h2]
  refine ⟨?_, hcore, ?_, ?_⟩
  · intro h1 h2
    apply hcore h1
    rw [gcmOpen, if_pos (by rw [List.length_drop]; omega)]
  · intro h1 m hcontra
    rw [decryptBlobAESGCM256, if_neg (by omega),
      if_neg (by simp only [AESNonceSize]; omega)] at hcontra
    rcases hgo : gcmOpen A key (S.take AESNonceSize) (S.drop AESNonceSize) with _ | pt <;>
      simp [hgo] at hcontra
  · intro h1
    rw [decryptBlobAESGCM256, if_neg (by omega),
      if_pos (by simp only [AESNonceSize]; omega)]

theorem claim4_amended_witness :
    (12 ≤ (List.replicate 13 0 : Bytes).length → (List.replicate 13 0 : Bytes).length < 28 →
      decryptBlobAESGCM256 trivAEAD (List.replicate 13 0) cKey =
        .err "could not decrypt the data using the provided key material") ∧
    (12 ≤ (List.replicate 13 0 : Bytes).length →
      gcmOpen trivAEAD cKey ((List.replicate 13 0 : Bytes).take 12)
        ((List.replicate 13 0 : Bytes).drop 12) = none →
      decryptBlobAESGCM256 trivAEAD (List.replicate 13 0) cKey =
        .err "could not decrypt the data using the provided key material") ∧
    (12 ≤ (List.replicate 13 0 : Bytes).length →
      ∀ m, decryptBlobAESGCM256 trivAEAD (List.replicate 13 0) cKey ≠ .crash m) ∧
    ((List.replicate 13 0 : Bytes).length < 12 →
      decryptBlobAESGCM256 trivAEAD (List.replicate 13 0) cKey =
        .crash "runtime error: slice bounds out of range") :=
  claim4_amended trivAEAD (List.replicate 13 0) cKey (by decide)

/-- C5: for every AEAD instance and 12-byte nonce, sealing a plaintext under
a 32-byte key yields nonce, then ciphertext of the plaintext's length, then
the 16-byte tag, for a total of 12 + length + 16 bytes; keys of any other
length are rejected with an error. -/
theorem claim5_seal_layout (A : AEADModel) (nonce P key : Bytes)
    (hnonce : nonce.length = 12) :
    (key.length = 32 →
      ∃ ct, encryptBlobAESGCM256 A nonce P key = .ok (nonce ++ (ct ++ A.tagOf key nonce ct)) ∧
        ct.length = P.length ∧
        (A.tagOf key nonce ct).length = 16 ∧
        (nonce ++ (ct ++ A.tagOf key nonce ct)).length = 12 + P.length + 16) ∧
    (key.length ≠ 32 →
      encryptBlobAESGCM256 A nonce P key =
        .error "invalid key size supplied - this function takes 256 bits of key material") := by
  constructor
  · intro hkey
    refine ⟨xorStream (A.keyStream key nonce) 0 P, ?_, xorStream_length _ 0 P,
      A.tagOf_length .., ?_⟩
    · rw [encryptBlobAESGCM256, if_neg (by omega)]
      rfl
    · simp only [List.length_append, xorStream_length, A.tagOf_length, hnonce]
      omega
  · intro hkey
    rw [encryptBlobAESGCM256, if_pos hkey]

theorem claim5_seal_layout_witness :
    (cKey.length = 32 →
      ∃ ct, encryptBlobAESGCM256 trivAEAD cNonce [5, 6] cKey =
          .ok (cNonce ++ (ct ++ trivAEAD.tagOf cKey cNonce ct)) ∧
        ct.length = ([5, 6] : Bytes).length ∧
        (trivAEAD.tagOf cKey cNonce ct).length = 16 ∧
        (cNonce ++ (ct ++ trivAEAD.tagOf cKey cNonce ct)).length =
          12 + ([5, 6] : Bytes).length + 16) ∧
    (cKey.length ≠ 32 →
      encryptBlobAESGCM256 trivAEAD cNonce [5, 6] cKey =
        .error "invalid key size supplied - this function takes 256 bits of key material") :=
  claim5_seal_layout trivAEAD cNonce [5, 6] cKey (by decide)

/-- C6 counterexample: a read worker whose chunk loop aborts on a short read
assigns the failure to the block-scoped `err` and sends nil on the
aggregation channel, so the stage reports no error at all; a write worker
aborting on a failed chunk write likewise sends nil; and when two worker
errors are delivered the stage reports the last observed one, not the
first. -/
theorem claim6_counterexample :
    readWorkerRun [102] (some [1, 2, 3]) [⟨1, 0, 10⟩] =
      (some "error occurred durring read of file", none) ∧
    collectWorkerErrors "read worker error: "
      [(readWorkerRun [102] (some [1, 2, 3]) [⟨1, 0, 10⟩]).2] = none ∧
    writeWorkerRun [103] false true none [some "disk full"] =
      (some "disk full", none) ∧
    collectWorkerErrors "write worker error: "
      [(writeWorkerRun [103] false true none [some "disk full"]).2] = none ∧
    collectWorkerErrors "read worker error: " [some "seek failure", some "short read"] =
      some "read worker error: short read" ∧
    collectWorkerErrors "read worker error: " [some "seek failure", some "short read"] ≠
      some "read worker error: seek failure" := by
  exact ⟨rfl, rfl, rfl, rfl, rfl, by decide⟩

/-- C6 amended: only worker errors assigned to the function-scoped `err` (an
empty file name or a failed `os.Open` in a read worker; an empty file name,
an existing target without force, or a failed `os.Create` in the write
worker) are delivered to the stage-local aggregation channel, and the stage
reports the LAST observed worker error, each later non-nil result
overwriting the stage error.  The loop failures the original claim
enumerates are never delivered: seek failures and short reads in a read
worker and chunk-write and flush failures in the write worker are assigned
to block-scoped variables shadowing `err`, so after a successful open or
create those workers send nil however the loop failed. -/
theorem claim6_amended (label : String) (rs : List (Option String))
    (fileName wname : Bytes) (hname : fileName ≠ []) (hwname : wname ≠ [])
    (D : Bytes) (requests : List ChunkReadRequest) (ex : Bool)
    (createE : Option String) (writeResults : List (Option String)) :
    collectWorkerErrors label rs = (lastWorkerError rs).map (fun e => label ++ e) ∧
    (readWorkerRun [] (some D) requests).2 = some "empty string passed in for filename" ∧
    (readWorkerRun fileName none requests).2 = some "source file does not exist" ∧
    (readWorkerRun fileName (some D) requests).2 = none ∧
    (writeWorkerRun wname true false createE writeResults).2 =
      some "file already exists and overwriting was not specified" ∧
    (writeWorkerRun wname ex true (some "create failed") writeResults).2 =
      some "could not open file for writing: create failed" ∧
    (writeWorkerRun wname ex true none writeResults).2 = none := by
  refine ⟨collectWorkerErrors_eq_last label rs, rfl, ?_, ?_, ?_, ?_, ?_⟩
  · simp [readWorkerRun, hname]
  · simp [readWorkerRun, hname]
  · simp [writeWorkerRun, hwname]
  · simp [writeWorkerRun, hwname]
  · simp [writeWorkerRun, hwname]

/-- Concrete instantiation of the C6 amended theorem: one-byte file names,
one delivered worker error, an empty request list and an empty write list. -/
theorem claim6_amended_witness :
    ([102] : Bytes) ≠ [] ∧ ([103] : Bytes) ≠ [] ∧
    (collectWorkerErrors "read worker error: " [some "a", none] =
        (lastWorkerError [some "a", none]).map (fun e => "read worker error: " ++ e) ∧
      (readWorkerRun [] (some [1]) []).2 = some "empty string passed in for filename" ∧
      (readWorkerRun [102] none []).2 = some "source file does not exist" ∧
      (readWorkerRun [102] (some [1]) []).2 = none ∧
      (writeWorkerRun [103] true false none []).2 =
        some "file already exists and overwriting was not specified" ∧
      (writeWorkerRun [103] false true (some "create failed") []).2 =
        some "could not open file for writing: create failed" ∧
      (writeWorkerRun [103] false true none []).2 = none) :=
  ⟨by decide, by decide,
    claim6_amended "read worker error: " [some "a", none] [102] [103]
      (by decide) (by decide) [1] [] false none []⟩

/-- C7: with the per-chunk nonces held fixed, the encryption pipeline output
is the container header followed by the sealed chunks in ascending chunk-id
order, and the output bytes are identical for every reader count in [1,30]
and executor count in [1,60]. -/
theorem claim7_ordering_determinism (A : AEADModel) (nonces : List Bytes) (key F : Bytes)
    (cMB R T R' T' : Nat) (hkey : key.length = 32)
    (hR : 1 ≤ R) (hR30 : R ≤ 30) (hT : 1 ≤ T) (hT60 : T ≤ 60)
    (hR' : 1 ≤ R') (hR30' : R' ≤ 30) (hT' : 1 ≤ T') (hT60' : T' ≤ 60) :
    pipelineEncryptBytes A nonces key F cMB R T =
      .ok (getCompleteEncryptedFileHeaderAsBytes
          (writeStageHeader (numChunksFor F.length (bytesFromMB cMB)) cMB) ++
        (List.range (numChunksFor F.length (bytesFromMB cMB))).flatMap
          (sealedChunk A nonces key F (bytesFromMB cMB))) ∧
    pipelineEncryptBytes A nonces key F cMB R T =
      pipelineEncryptBytes A nonces key F cMB R' T' := by
  refine ⟨pipelineEncryptBytes_canonical A nonces key F cMB R T hkey hR hT, ?_⟩
  rw [pipelineEncryptBytes_canonical A nonces key F cMB R T hkey hR hT,
    pipelineEncryptBytes_canonical A nonces key F cMB R' T' hkey hR' hT']

theorem claim7_ordering_determinism_witness :
    pipelineEncryptBytes trivAEAD [cNonce] cKey [1, 2, 3] 1 30 60 =
      .ok (getCompleteEncryptedFileHeaderAsBytes
          (writeStageHeader (numChunksFor ([1, 2, 3] : Bytes).length (bytesFromMB 1)) 1) ++
        (List.range (numChunksFor ([1, 2, 3] : Bytes).length (bytesFromMB 1))).flatMap
          (sealedChunk trivAEAD [cNonce] cKey [1, 2, 3] (bytesFromMB 1))) ∧
    pipelineEncryptBytes trivAEAD [cNonce] cKey [1, 2, 3] 1 30 60 =
      pipelineEncryptBytes trivAEAD [cNonce] cKey [1, 2, 3] 1 1 1 :=
  claim7_ordering_determinism trivAEAD [cNonce] cKey [1, 2, 3] 1 30 60 1 1 (by decide)
    (by decide) (by decide) (by decide) (by decide) (by decide) (by decide) (by decide)
    (by decide)

/-- C8 counterexample: the chunk count is not the ceiling for every source
size: at 2 ^ 52 bytes with 1 MiB chunks the `uint32` cast wraps the 2 ^ 32
chunks to 0. -/
theorem claim8_counterexample :
    numChunksFor 4503599627370496 (bytesFromMB 1) = 0 ∧
    (4503599627370496 + bytesFromMB 1 - 1) / bytesFromMB 1 = 4294967296 ∧
    numChunksFor 4503599627370496 (bytesFromMB 1) ≠
      (4503599627370496 + bytesFromMB 1 - 1) / bytesFromMB 1 := by
  exact ⟨by decide, by decide, by decide⟩

/-- C8 amended: for a source of size at least 1 byte whose chunk count fits
the implementation's `uint32` (below 2 ^ 51 bytes suffices for every
permitted chunk size), the chunk count is the ceiling of
size / chunk_size_bytes; on an exact multiple the final chunk is full size
with no extra chunk, and a source smaller than one chunk yields exactly one
chunk whose range end is clamped to the file size. -/
theorem claim8_chunk_plan (s cMB : Nat) (hcMB : 1 ≤ cMB) (hcMB64 : cMB ≤ 64)
    (hs : 1 ≤ s) (hbig : s < 2 ^ 51) :
    numChunksFor s (bytesFromMB cMB) =
      (s + bytesFromMB cMB - 1) / bytesFromMB cMB ∧
    (s % bytesFromMB cMB = 0 →
      numChunksFor s (bytesFromMB cMB) = s / bytesFromMB cMB ∧
      ∃ req, readStageRequest .Encryption cMB emptyHeader 0 s
          (numChunksFor s (bytesFromMB cMB) - 1) = some req ∧
        req.RangeStart = (numChunksFor s (bytesFromMB cMB) - 1) * bytesFromMB cMB ∧
        req.RangeEnd = s ∧
        req.RangeEnd - req.RangeStart = bytesFromMB cMB) ∧
    (s < bytesFromMB cMB →
      numChunksFor s (bytesFromMB cMB) = 1 ∧
      ∃ req, readStageRequest .Encryption cMB emptyHeader 0 s 0 = some req ∧
        req.RangeStart = 0 ∧ req.RangeEnd = s) := by
  have hC20 : 2 ^ 20 ≤ bytesFromMB cMB := by
    rw [bytesFromMB]
    calc (2 : Nat) ^ 20 = 1 * 1024 * 1024 := by norm_num
    _ ≤ cMB * 1024 * 1024 := Nat.mul_le_mul_right 1024 (Nat.mul_le_mul_right 1024 hcMB)
  have hC : 1 ≤ bytesFromMB cMB := le_trans (by norm_num) hC20
  have hq : s / bytesFromMB cMB + 1 < 2 ^ 32 := by
    have h1 : s / bytesFromMB cMB ≤ s / 2 ^ 20 := Nat.div_le_div_left hC20 (by norm_num)
    have h2 : s / 2 ^ 20 < 2 ^ 31 := by
      rw [Nat.div_lt_iff_lt_mul (by norm_num : (0 : Nat) < 2 ^ 20)]
      calc s < 2 ^ 51 := hbig
      _ = 2 ^ 31 * 2 ^ 20 := by norm_num
    omega
  refine ⟨numChunksFor_eq_ceil s (bytesFromMB cMB) hC hq, ?_, ?_⟩
  · intro hmod
    have hn : numChunksFor s (bytesFromMB cMB) = s / bytesFromMB cMB := by
      rw [numChunksFor_untrunc s (bytesFromMB cMB) hq, if_neg (by omega), Nat.add_zero]
    have hn1 : 1 ≤ numChunksFor s (bytesFromMB cMB) :=
      numChunksFor_pos s (bytesFromMB cMB) hC hs hq
    have hdm := Nat.div_add_mod s (bytesFromMB cMB)
    have hnC : numChunksFor s (bytesFromMB cMB) * bytesFromMB cMB = s := by
      rw [hn, Nat.mul_comm]
      generalize bytesFromMB cMB * (s / bytesFromMB cMB) = P at hdm ⊢
      omega
    have hprod : (numChunksFor s (bytesFromMB cMB) - 1) * bytesFromMB cMB + bytesFromMB cMB =
        numChunksFor s (bytesFromMB cMB) * bytesFromMB cMB := by
      obtain ⟨m, hm⟩ : ∃ m, numChunksFor s (bytesFromMB cMB) = m + 1 :=
        ⟨numChunksFor s (bytesFromMB cMB) - 1, by omega⟩
      rw [hm]
      simp
      ring
    have hend : (if s ≤ (numChunksFor s (bytesFromMB cMB) - 1) * bytesFromMB cMB +
        bytesFromMB cMB then s
        else (numChunksFor s (bytesFromMB cMB) - 1) * bytesFromMB cMB + bytesFromMB cMB) =
        s := if_pos (by omega)
    have hreq : readStageRequest .Encryption cMB emptyHeader 0 s
        (numChunksFor s (bytesFromMB cMB) - 1) =
        some ⟨numChunksFor s (bytesFromMB cMB) - 1 + 1,
          (numChunksFor s (bytesFromMB cMB) - 1) * bytesFromMB cMB,
          if s ≤ (numChunksFor s (bytesFromMB cMB) - 1) * bytesFromMB cMB + bytesFromMB cMB
            then s
            else (numChunksFor s (bytesFromMB cMB) - 1) * bytesFromMB cMB +
              bytesFromMB cMB⟩ := rfl
    refine ⟨hn, ⟨numChunksFor s (bytesFromMB cMB) - 1 + 1,
      (numChunksFor s (bytesFromMB cMB) - 1) * bytesFromMB cMB, s⟩, ?_, rfl, rfl, ?_⟩
    · rw [hreq, hend]
    · show s - (numChunksFor s (bytesFromMB cMB) - 1) * bytesFromMB cMB = bytesFromMB cMB
      omega
  · intro hlt
    have hn1 : numChunksFor s (bytesFromMB cMB) = 1 := by
      rw [numChunksFor_untrunc s (bytesFromMB cMB) hq, Nat.div_eq_of_lt hlt,
        if_pos (by rw [Nat.mod_eq_of_lt hlt]; omega)]
    have hend : (if s ≤ 0 * bytesFromMB cMB + bytesFromMB cMB then s
        else 0 * bytesFromMB cMB + bytesFromMB cMB) = s :=
      if_pos (by rw [Nat.zero_mul]; omega)
    have hreq : readStageRequest .Encryption cMB emptyHeader 0 s 0 =
        some ⟨0 + 1, 0 * bytesFromMB cMB,
          if s ≤ 0 * bytesFromMB cMB + bytesFromMB cMB then s
            else 0 * bytesFromMB cMB + bytesFromMB cMB⟩ := rfl
    refine ⟨hn1, ⟨0 + 1, 0, s⟩, ?_, rfl, rfl⟩
    rw [hreq, hend, Nat.zero_mul]

theorem claim8_chunk_plan_witness :
    (numChunksFor 2097152 (bytesFromMB 1) =
      (2097152 + bytesFromMB 1 - 1) / bytesFromMB 1 ∧
    (2097152 % bytesFromMB 1 = 0 →
      numChunksFor 2097152 (bytesFromMB 1) = 2097152 / bytesFromMB 1 ∧
      ∃ req, readStageRequest .Encryption 1 emptyHeader 0 2097152
          (numChunksFor 2097152 (bytesFromMB 1) - 1) = some req ∧
        req.RangeStart = (numChunksFor 2097152 (bytesFromMB 1) - 1) * bytesFromMB 1 ∧
        req.RangeEnd = 2097152 ∧
        req.RangeEnd - req.RangeStart = bytesFromMB 1) ∧
    (2097152 < bytesFromMB 1 →
      numChunksFor 2097152 (bytesFromMB 1) = 1 ∧
      ∃ req, readStageRequest .Encryption 1 emptyHeader 0 2097152 0 = some req ∧
        req.RangeStart = 0 ∧ req.RangeEnd = 2097152)) :=
  claim8_chunk_plan 2097152 1 (by norm_num) (by norm_num) (by norm_num) (by norm_num)

/-- C9: serializing a well-formed header and parsing the result returns the
header with end-of-header offset 2 + HLI, and the little-endian uint16 HLI
equals the byte length of the JSON encoding. -/
theorem claim9_header_roundtrip (h : EncryptedFileHeader) (hwf : wellFormedHeader h) :
    getEncryptedFileHeaderFromBytes (getCompleteEncryptedFileHeaderAsBytes h) =
      some (h, 2 + (marshalHeaderJson h).length) ∧
    uint16FromBytes (getCompleteEncryptedFileHeaderAsBytes h) =
      some ((marshalHeaderJson h).length) ∧
    (getCompleteEncryptedFileHeaderAsBytes h).length = 2 + (marshalHeaderJson h).length := by
  refine ⟨getEncryptedFileHeaderFromBytes_round h hwf, ?_, ?_⟩
  · obtain ⟨_, _, _, _, _, _, hlen⟩ := hwf
    have hu : uint16FromBytes (getCompleteEncryptedFileHeaderAsBytes h) =
        some (((marshalHeaderJson h).length % 65536) % 256 % 256 +
          256 * (((marshalHeaderJson h).length % 65536) / 256 % 256 % 256)) := rfl
    rw [hu]
    exact congrArg some (by omega)
  · rw [getCompleteEncryptedFileHeaderAsBytes]
    simp [bytesFromUint16]
    omega

theorem claim9_header_roundtrip_witness :
    getEncryptedFileHeaderFromBytes (getCompleteEncryptedFileHeaderAsBytes
        (writeStageHeader 3 8)) =
      some (writeStageHeader 3 8, 2 + (marshalHeaderJson (writeStageHeader 3 8)).length) ∧
    uint16FromBytes (getCompleteEncryptedFileHeaderAsBytes (writeStageHeader 3 8)) =
      some ((marshalHeaderJson (writeStageHeader 3 8)).length) ∧
    (getCompleteEncryptedFileHeaderAsBytes (writeStageHeader 3 8)).length =
      2 + (marshalHeaderJson (writeStageHeader 3 8)).length :=
  claim9_header_roundtrip (writeStageHeader 3 8) (by decide)

/-- C10: when a non-empty hex key string is supplied, the key material comes
from hex decoding alone: the result does not depend on the key-derivation
function or on the password, and the decoded bytes must still be exactly 32,
otherwise the job is rejected. -/
theorem claim10_hexkey_precedence (kdf kdf' : Bytes → Bytes) (keyHex pw pw' : Bytes)
    (hne : keyHex ≠ []) :
    pipelineJobKeyMaterial kdf keyHex pw = pipelineJobKeyMaterial kdf' keyHex pw' ∧
    (∀ km, hexDecodeString keyHex = some km → km.length = 32 →
      pipelineJobKeyMaterial kdf keyHex pw = .ok km) ∧
    (∀ km, hexDecodeString keyHex = some km → km.length ≠ 32 →
      pipelineJobKeyMaterial kdf keyHex pw =
        .error "currently only 256 bit (32 byte) keys are supported") := by
  refine ⟨?_, ?_, ?_⟩
  · rw [pipelineJobKeyMaterial, pipelineJobKeyMaterial]
    simp only [if_pos hne]
  · intro km hdec hlen
    rw [pipelineJobKeyMaterial]
    simp only [if_pos hne, hdec]
    rw [if_neg (by omega)]
  · intro km hdec hlen
    rw [pipelineJobKeyMaterial]
    simp only [if_pos hne, hdec]
    rw [if_pos hlen]

theorem claim10_hexkey_precedence_witness :
    pipelineJobKeyMaterial (fun _ => []) [48, 48] [97] =
      pipelineJobKeyMaterial (fun _ => List.replicate 32 1) [48, 48] [98] ∧
    (∀ km, hexDecodeString [48, 48] = some km → km.length = 32 →
      pipelineJobKeyMaterial (fun _ => []) [48, 48] [97] = .ok km) ∧
    (∀ km, hexDecodeString [48, 48] = some km → km.length ≠ 32 →
      pipelineJobKeyMaterial (fun _ => []) [48, 48] [97] =
        .error "currently only 256 bit (32 byte) keys are supported") :=
  claim10_hexkey_precedence (fun _ => []) (fun _ => List.replicate 32 1) [48, 48] [97] [98]
    (by decide)

end Encryptor
